import Mathlib

/-!
Enterprise Search configuration reconciliation.

A shallow embedding of `pkg/controller/enterprisesearch/config.go`:
the layered composition of the Enterprise Search settings document
(`defaultConfig`, `associationConfig`, `newConfig`) and the reconciliation of
the secret that stores its rendered form (`ReconcileConfig`).

The packages `settings`, `reconciler`, `association`, `name` and the API types
are not part of the source file; they are modelled from the design document or
taken as parameters, and each such definition says so.
-/

namespace enterprisesearch

/-! ## Errors -/

/-- A fully-qualified key: the segments of a dotted key path. -/
abbrev Path := List String

/-- Error values returned by the operations below (section 7 of the design). -/
inductive Error where
  | ConfigParseError (path : Path)
  | ConfigMergeError (path : Path)
  | CredentialResolutionError (msg : String)
  | RenderError (msg : String)
  | StoreError (msg : String)
  | Panic (path : Path)
  deriving DecidableEq

/-! ## Settings documents -/

/-- Modelled from the spec: the non-map cases of the tagged value variant of a
settings document (string, bool, list of strings); the `settings` package is
not part of the source. -/
inductive Leaf where
  | str (s : String)
  | bool (b : Bool)
  | list (xs : List String)
  deriving DecidableEq

/-- Modelled from the spec: whether two leaf values carry the same tag; a merge
of two sources with different tags at one leaf is a type mismatch. -/
def Leaf.sameType : Leaf → Leaf → Bool
  | .str _, .str _ => true
  | .bool _, .bool _ => true
  | .list _, .list _ => true
  | _, _ => false

/-- Modelled from the spec: `settings.CanonicalConfig`, an ordered key-path tree.
A document is a sequence of entries; an entry binds one key segment either to a
leaf value or to a nested document. -/
inductive CanonicalConfig where
  | empty
  | leaf (key : String) (value : Leaf) (rest : CanonicalConfig)
  | sub (key : String) (child : CanonicalConfig) (rest : CanonicalConfig)
  deriving DecidableEq

/-- A raw untyped Go map (`map[string]interface{}` or `map[string]string`) as
written in a literal or received from the resource: its entries, keys possibly
dotted, values leaves or nested raw maps, listed in the order of the source
literal. The nil map and the empty map are both `nil`. -/
inductive RawMap where
  | nil
  | leaf (key : String) (value : Leaf) (rest : RawMap)
  | sub (key : String) (child : RawMap) (rest : RawMap)
  deriving DecidableEq

namespace CanonicalConfig

/-- The key segments bound at the top level of a document, in order. -/
def keys : CanonicalConfig → List String
  | empty => []
  | leaf k _ rest => k :: rest.keys
  | sub k _ rest => k :: rest.keys

/-- The invariant of the data model: keys are unique within every level, hence
within the fully-qualified path. -/
def WF : CanonicalConfig → Prop
  | empty => True
  | leaf k _ rest => k ∉ rest.keys ∧ rest.WF
  | sub k child rest => k ∉ rest.keys ∧ child.WF ∧ rest.WF

/-- The leaf value a document defines at a fully-qualified key, if any. -/
def leafAt : CanonicalConfig → Path → Option Leaf
  | _, [] => none
  | empty, _ :: _ => none
  | leaf k v rest, key :: ks =>
    if k = key then (if ks = [] then some v else none) else rest.leafAt (key :: ks)
  | sub k child rest, key :: ks =>
    if k = key then child.leafAt ks else rest.leafAt (key :: ks)

/-- All leaves of a document with their fully-qualified keys, in document order. -/
def flatten : CanonicalConfig → List (Path × Leaf)
  | empty => []
  | leaf k v rest => ([k], v) :: rest.flatten
  | sub k child rest => child.flatten.map (fun e => (k :: e.1, e.2)) ++ rest.flatten

/-- The leaves of a document under their dotted keys, in document order. -/
def entries (cfg : CanonicalConfig) : List (String × Leaf) :=
  cfg.flatten.map (fun e => (String.intercalate "." e.1, e.2))

/-- Modelled from the spec: writing one leaf under a key segment of the target of
a merge. The last writer wins when the key is unset or holds a leaf of the same
type; a leaf of another type or a nested document under the key is a type
mismatch, reported with the offending key path. -/
def setLeaf (pfx : Path) : CanonicalConfig → String → Leaf → Except Error CanonicalConfig
  | empty, k, v => .ok (leaf k v empty)
  | leaf k' v' rest, k, v =>
    if k' = k then
      (if v'.sameType v then .ok (leaf k v rest) else .error (.ConfigMergeError (pfx ++ [k])))
    else
      match setLeaf pfx rest k v with
      | .ok rest' => .ok (leaf k' v' rest')
      | .error e => .error e
  | sub k' child rest, k, v =>
    if k' = k then .error (.ConfigMergeError (pfx ++ [k]))
    else
      match setLeaf pfx rest k v with
      | .ok rest' => .ok (sub k' child rest')
      | .error e => .error e

/-- Modelled from the spec: the nested document the target of a merge holds under
a key segment (empty when the key is unset); a leaf there is a type mismatch. -/
def childAt (pfx : Path) : CanonicalConfig → String → Except Error CanonicalConfig
  | empty, _ => .ok empty
  | leaf k' _ rest, k =>
    if k' = k then .error (.ConfigMergeError (pfx ++ [k])) else childAt pfx rest k
  | sub k' child rest, k =>
    if k' = k then .ok child else childAt pfx rest k

/-- Modelled from the spec: binding a key segment of the target to a nested
document, in place when the key is already bound and as a new last entry
otherwise. -/
def putSub : CanonicalConfig → String → CanonicalConfig → CanonicalConfig
  | empty, k, c => sub k c empty
  | leaf k' v' rest, k, c => if k' = k then sub k c rest else leaf k' v' (putSub rest k c)
  | sub k' child rest, k, c => if k' = k then sub k c rest else sub k' child (putSub rest k c)

/-- Modelled from the spec: the deep merge of one source document into a target
(section 4.1). Every entry of the source is written to the target in order: a
leaf overrides the target's leaf at the same key, a nested document is merged
into the target's nested document at the same key, everything else in the
target is kept. `pfx` is the key path of the documents being merged. -/
def merge : CanonicalConfig → Path → CanonicalConfig → Except Error CanonicalConfig
  | empty, _, target => .ok target
  | leaf k v rest, pfx, target =>
    match setLeaf pfx target k v with
    | .ok target' => merge rest pfx target'
    | .error e => .error e
  | sub k child rest, pfx, target =>
    match childAt pfx target k with
    | .error e => .error e
    | .ok c =>
      match merge child (pfx ++ [k]) c with
      | .error e => .error e
      | .ok c' => merge rest pfx (putSub target k c')

/-- Modelled from the spec: `(*CanonicalConfig).MergeWith(cfgs...)`, which merges
the given documents into the receiver in argument order and stops at the first
error. The receiver is mutated in place, so the result is the receiver after
the call together with the error, if any. -/
def MergeWith (c : CanonicalConfig) : List CanonicalConfig → CanonicalConfig × Option Error
  | [] => (c, none)
  | c2 :: cfgs =>
    match merge c2 [] c with
    | .error e => (c, some e)
    | .ok c' => MergeWith c' cfgs

end CanonicalConfig

/-- Modelled from the spec: `settings.NewCanonicalConfig()`, the empty document. -/
def NewCanonicalConfig : CanonicalConfig := .empty

/-- Modelled from the spec: keys are dotted key-paths. Splitting the characters of a
key on the separator `.`; `cur` holds the characters of the current segment in
reverse. -/
def splitOnDot : List Char → List Char → List String
  | [], cur => [String.mk cur.reverse]
  | c :: cs, cur =>
    if c = '.' then String.mk cur.reverse :: splitOnDot cs [] else splitOnDot cs (c :: cur)

/-- The segments of a dotted key such as `elasticsearch.ssl.enabled`. -/
def splitPath (key : String) : Path := splitOnDot key.toList []

/-- The document that holds `cfg` under the key path `p` and nothing else. -/
def nestUnder : Path → CanonicalConfig → CanonicalConfig
  | [], cfg => cfg
  | k :: ks, cfg => .sub k (nestUnder ks cfg) .empty

/-- The document that holds the leaf `v` at the key path `p` and nothing else. -/
def nestLeaf : Path → Leaf → CanonicalConfig
  | [], _ => .empty
  | [k], v => .leaf k v .empty
  | k :: k2 :: ks, v => .sub k (nestLeaf (k2 :: ks) v) .empty

/-- Modelled from the spec: building a document from a raw untyped map. Every entry
is merged in at the path its dotted key names, on top of what the earlier entries
wrote, so that a key bound both to a leaf and to a nested document is an error. -/
def fromRaw : RawMap → CanonicalConfig → Except Error CanonicalConfig
  | .nil, acc => .ok acc
  | .leaf key v rest, acc =>
    match CanonicalConfig.merge (nestLeaf (splitPath key) v) [] acc with
    | .ok acc' => fromRaw rest acc'
    | .error e => .error e
  | .sub key child rest, acc =>
    match fromRaw child .empty with
    | .error e => .error e
    | .ok c =>
      match CanonicalConfig.merge (nestUnder (splitPath key) c) [] acc with
      | .ok acc' => fromRaw rest acc'
      | .error e => .error e

/-- The key path an error of the settings package points at. -/
def Error.path : Error → Path
  | .ConfigParseError p => p
  | .ConfigMergeError p => p
  | .Panic p => p
  | _ => []

/-- Modelled from the spec: `settings.NewCanonicalConfigFrom(data)`, which builds a
document from a raw untyped map and fails with a `ConfigParseError` naming the
offending key path when the map is malformed. -/
def NewCanonicalConfigFrom (data : RawMap) : Except Error CanonicalConfig :=
  match fromRaw data .empty with
  | .ok cfg => .ok cfg
  | .error e => .error (.ConfigParseError e.path)

/-- Modelled from the spec: `settings.MustCanonicalConfig(cfg)`, which builds a
document from a raw map and panics where `NewCanonicalConfigFrom` fails. -/
def MustCanonicalConfig (cfg : RawMap) : Except Error CanonicalConfig :=
  match NewCanonicalConfigFrom cfg with
  | .ok c => .ok c
  | .error e => .error (.Panic e.path)


/-- The value of a key after a later layer is put over an earlier one. -/
def override (later earlier : Option Leaf) : Option Leaf :=
  match later with
  | some v => some v
  | none => earlier

/-! ## Go maps and deep equality -/

/-- The entries of a non-nil Go map with string keys: every key occurs once. -/
structure StrMap (V : Type) where
  entries : List (String × V)
  nodup : (entries.map Prod.fst).Nodup

/-- A Go map with string keys; `none` is the nil map. -/
abbrev GoMap (V : Type) := Option (StrMap V)

/-- A Go byte slice; `none` is the nil slice. -/
abbrev Bytes := Option (List Nat)

/-- The map with the single entry `k -> v`. -/
def StrMap.singleton {V : Type} (k : String) (v : V) : StrMap V :=
  ⟨[(k, v)], by simp⟩

/-- The value a map holds under a key, if any. -/
def StrMap.lookup {V : Type} (m : StrMap V) (k : String) : Option V :=
  m.entries.lookup k

/-- Indexing a Go map; the nil map holds nothing. -/
def GoMap.get? {V : Type} : GoMap V → String → Option V
  | none, _ => none
  | some m, k => m.lookup k

/-- Two Go maps are the same map value: both nil or both non-nil, and the same
value (or none) under every key. -/
def GoMap.Same {V : Type} (a b : GoMap V) : Prop :=
  (a.isSome = b.isSome) ∧ ∀ k, GoMap.get? a k = GoMap.get? b k

/-- Go's `reflect.DeepEqual` on two maps with string keys whose values are compared
by equality (strings, or byte slices with nil told apart from empty): both nil
or both non-nil, the same length, and every key of the first maps to an equal
value in the second. -/
def reflect.DeepEqual {V : Type} [DecidableEq V] : GoMap V → GoMap V → Bool
  | none, none => true
  | some a, some b =>
    decide (a.entries.length = b.entries.length) &&
      a.entries.all (fun e => decide (b.lookup e.1 = some e.2))
  | _, _ => false

/-! ## API types -/

/-- The `commonv1.Config` type: the user's settings as a raw untyped map. -/
structure commonv1.Config where
  Data : RawMap

/-- Modelled from the spec: `commonv1.AssociationConf` with the results of its
methods `IsConfigured()` and `CAIsConfigured()`, which the association resolver
of the design reports as two flags, and the backend URL. -/
structure commonv1.AssociationConf where
  IsConfigured : Bool
  CAIsConfigured : Bool
  URL : String

/-- The `entsv1beta1.EnterpriseSearchSpec` type, of which the code reads `Config`. -/
structure entsv1beta1.EnterpriseSearchSpec where
  Config : Option commonv1.Config

/-- The `entsv1beta1.EnterpriseSearch` resource, the owner of the configuration:
its identity, its spec and what `AssociationConf()` returns. -/
structure entsv1beta1.EnterpriseSearch where
  Namespace : String
  Name : String
  Spec : entsv1beta1.EnterpriseSearchSpec
  AssociationConf : commonv1.AssociationConf

/-- A `metav1.OwnerReference`: the back-reference from a managed object to its owner. -/
structure metav1.OwnerReference where
  Kind : String
  Name : String
  Controller : Bool
  deriving DecidableEq

/-- The fields of `metav1.ObjectMeta`: the identity, the labels and metadata the
store manages. -/
structure metav1.ObjectMeta where
  Namespace : String
  Name : String
  Labels : GoMap String
  Annotations : GoMap String
  OwnerReferences : List metav1.OwnerReference
  ResourceVersion : String
  UID : String

/-- The `corev1.Secret` type: object metadata (embedded) and the payload. -/
structure corev1.Secret extends metav1.ObjectMeta where
  Type_ : String
  Data : GoMap Bytes
  StringData : GoMap String

/-! ## The store behind `k8s.Client` -/

/-- Modelled from the spec: the object store reached through `k8s.Client`
(section 6): the persisted secrets, keyed by (namespace, name), and for each of
the coming requests whether the store answers it with an error. -/
structure Client where
  secrets : List corev1.Secret
  faults : List (Option Error)

/-- Whether a stored secret has the identity (namespace, name). -/
def isNamed (ns name : String) (s : corev1.Secret) : Bool :=
  decide (s.Namespace = ns) && decide (s.Name = name)

/-- Replacing the first secret with the identity of `s` by `s`. -/
def replaceNamed (s : corev1.Secret) : List corev1.Secret → List corev1.Secret
  | [] => []
  | x :: xs => if isNamed s.Namespace s.Name x then s :: xs else x :: replaceNamed s xs

namespace Client

/-- Modelled from the spec: `get(identity) -> (record, found, error)`. Not found is
`ok none`; a store error leaves the store as it is. -/
def Get (c : Client) (ns name : String) : Except Error (Option corev1.Secret) × Client :=
  match c.faults with
  | some e :: fs => (.error e, { c with faults := fs })
  | fs => (.ok (c.secrets.find? (isNamed ns name)), { c with faults := fs.tail })

/-- Modelled from the spec: `create(record) -> error`. The record is stored as given
unless the store answers with an error or the identity is already taken. -/
def Create (c : Client) (s : corev1.Secret) : Option Error × Client :=
  match c.faults with
  | some e :: fs => (some e, { c with faults := fs })
  | fs =>
    if c.secrets.any (isNamed s.Namespace s.Name) then
      (some (.StoreError "already exists"), { c with faults := fs.tail })
    else (none, { secrets := c.secrets ++ [s], faults := fs.tail })

/-- Modelled from the spec: `update(record) -> error`. The stored record of the same
identity is replaced unless the store answers with an error or holds no such
record. -/
def Update (c : Client) (s : corev1.Secret) : Option Error × Client :=
  match c.faults with
  | some e :: fs => (some e, { c with faults := fs })
  | fs =>
    if c.secrets.any (isNamed s.Namespace s.Name) then
      (none, { secrets := replaceNamed s c.secrets, faults := fs.tail })
    else (some (.StoreError "not found"), { c with faults := fs.tail })

end Client

/-! ## External collaborators -/

/-- What `config.go` uses and does not define: constants of sibling packages, the
naming and label helpers, the credentials lookup, the renderer and two library
functions. -/
structure Deps where
  /-- The constant `HTTPPort` of the package. -/
  HTTPPort : Int
  /-- The constant `certificates.CertFileName`. -/
  CertFileName : String
  /-- The function `filepath.Join` of the Go library, on two elements. -/
  Join : String → String → String
  /-- The function `entsname.Config`: the name of the configuration secret. -/
  ConfigName : String → String
  /-- The function `NewLabels`: the labels of the resources of an owner. -/
  NewLabels : String → GoMap String
  /-- The function `association.ElasticsearchAuthSettings`: the user name and password
  of the association, read through the client, or the lookup error. -/
  ElasticsearchAuthSettings :
    Client → entsv1beta1.EnterpriseSearch → Except Error (String × String)
  /-- The method `(*CanonicalConfig).Render`: the serialized document. -/
  Render : CanonicalConfig → Except Error Bytes

/-- Go's `fmt.Sprintf` for a format that is literal text followed by one `%d`. -/
def Sprintf_d (text : String) (d : Int) : String := text ++ toString d

/-! ## The reconciliation engine -/

/-- What the engine does against the store and the predicate, in order. -/
inductive Event where
  | Get (ns name : String)
  | NeedsUpdate (result : Bool)
  | Create (s : corev1.Secret)
  | Update (s : corev1.Secret)

/-- Whether an event is a write request to the store. -/
def Event.isWrite : Event → Bool
  | .Create _ => true
  | .Update _ => true
  | _ => false

/-- The outcome of a reconciliation: what is returned, the store afterwards and
what was done. -/
structure Outcome where
  result : Except Error corev1.Secret
  client : Client
  trace : List Event

/-- The number of write requests in a trace. -/
def writes (t : List Event) : Nat := (t.filter Event.isWrite).length

/-- The results of the evaluations of `NeedsUpdate` in a trace, in order. -/
def needsUpdateResults : List Event → List Bool
  | [] => []
  | .NeedsUpdate b :: t => b :: needsUpdateResults t
  | _ :: t => needsUpdateResults t

/-- The `reconciler.Params` type for a secret. The closures `NeedsUpdate` and
`UpdateReconciled` read and write the record behind the `Reconciled` pointer;
here they take that record and return the answer or the record after the
mutation. -/
structure reconciler.Params where
  Owner : entsv1beta1.EnterpriseSearch
  Expected : corev1.Secret
  NeedsUpdate : corev1.Secret → Bool
  UpdateReconciled : corev1.Secret → corev1.Secret

/-- The owner back-reference the engine sets on a record it creates. -/
def ownerReference (owner : entsv1beta1.EnterpriseSearch) : metav1.OwnerReference :=
  { Kind := "EnterpriseSearch", Name := owner.Name, Controller := true }

/-- Modelled from the spec: `reconciler.ReconcileResource` (section 4.3), for a
secret. Step 1 fetches the record with the identity of the expected one;
step 2 creates it from the expected record, with the owner back-reference,
when it is not found; step 3 returns the observed record when `NeedsUpdate`
is false; step 4 applies `UpdateReconciled` to the observed record and
persists it as an update. Store errors are returned unchanged. -/
def reconciler.ReconcileResource (c : Client) (params : reconciler.Params) : Outcome :=
  let get := Event.Get params.Expected.Namespace params.Expected.Name
  match c.Get params.Expected.Namespace params.Expected.Name with
  | (.error err, c1) => ⟨.error err, c1, [get]⟩
  | (.ok none, c1) =>
    let created : corev1.Secret :=
      { params.Expected with
        OwnerReferences := params.Expected.OwnerReferences ++ [ownerReference params.Owner] }
    match c1.Create created with
    | (some err, c2) => ⟨.error err, c2, [get, .Create created]⟩
    | (none, c2) => ⟨.ok created, c2, [get, .Create created]⟩
  | (.ok (some reconciled), c1) =>
    if params.NeedsUpdate reconciled then
      let updated := params.UpdateReconciled reconciled
      match c1.Update updated with
      | (some err, c2) => ⟨.error err, c2, [get, .NeedsUpdate true, .Update updated]⟩
      | (none, c2) => ⟨.ok updated, c2, [get, .NeedsUpdate true, .Update updated]⟩
    else ⟨.ok reconciled, c1, [get, .NeedsUpdate false]⟩

/-! ## `config.go` -/

/-- The mount path of the Elasticsearch certificates. -/
def ESCertsPath : String := "/mnt/es-certs"

/-- The file name of the rendered configuration. -/
def ConfigFilename : String := "enterprise-search.yml"

/-- The mount path of the configuration. -/
def ConfigMountPath : String := "/mnt/config"

/-- The map literal of `defaultConfig`. -/
def defaultSettings (W : Deps) : RawMap :=
  .leaf "ent_search.external_url" (.str (Sprintf_d "http://localhost:" W.HTTPPort)) <|
  .leaf "ent_search.listen_host" (.str "0.0.0.0") <|
  .leaf "allow_es_settings_modification" (.bool true) <|
  .leaf "secret_session_key" (.str "TODOCHANGEMEsecret_session_key") <|
  .leaf "secret_management.encryption_keys"
    (.list ["TODOCHANGEMEsecret_management.encryption_keys"]) .nil

/-- The function `defaultConfig`: the built-in defaults. -/
def defaultConfig (W : Deps) : Except Error CanonicalConfig :=
  MustCanonicalConfig (defaultSettings W)

/-- The first map literal of `associationConfig`: the connection settings. -/
def associationSettings (url username password : String) : RawMap :=
  .leaf "ent_search.auth.source" (.str "elasticsearch-native") <|
  .leaf "elasticsearch.host" (.str url) <|
  .leaf "elasticsearch.username" (.str username) <|
  .leaf "elasticsearch.password" (.str password) .nil

/-- The second map literal of `associationConfig`: the TLS settings. -/
def caSettings (W : Deps) : RawMap :=
  .leaf "elasticsearch.ssl.enabled" (.bool true) <|
  .leaf "elasticsearch.ssl.certificate_authority"
    (.str (W.Join ESCertsPath W.CertFileName)) .nil

/-- The function `associationConfig`: the settings derived from the association, empty
when no association is configured. The error of the inner `MergeWith` is
discarded, as in the source. -/
def associationConfig (W : Deps) (c : Client) (ents : entsv1beta1.EnterpriseSearch) :
    Except Error CanonicalConfig :=
  if !ents.AssociationConf.IsConfigured then
    .ok NewCanonicalConfig
  else
    match W.ElasticsearchAuthSettings c ents with
    | .error err => .error err
    | .ok (username, password) =>
      match MustCanonicalConfig (associationSettings ents.AssociationConf.URL username password) with
      | .error p => .error p
      | .ok cfg =>
        if ents.AssociationConf.CAIsConfigured then
          match MustCanonicalConfig (caSettings W) with
          | .error p => .error p
          | .ok ca => .ok (cfg.MergeWith [ca]).1
        else .ok cfg

/-- The document the map literal of `defaultConfig` denotes. -/
def defaultDocument (W : Deps) : CanonicalConfig :=
  .sub "ent_search"
    (.leaf "external_url" (.str (Sprintf_d "http://localhost:" W.HTTPPort))
      (.leaf "listen_host" (.str "0.0.0.0") .empty))
    (.leaf "allow_es_settings_modification" (.bool true)
      (.leaf "secret_session_key" (.str "TODOCHANGEMEsecret_session_key")
        (.sub "secret_management"
          (.leaf "encryption_keys"
            (.list ["TODOCHANGEMEsecret_management.encryption_keys"]) .empty)
          .empty)))

/-- The document the first map literal of `associationConfig` denotes. -/
def associationDocument (url username password : String) : CanonicalConfig :=
  .sub "ent_search"
    (.sub "auth" (.leaf "source" (.str "elasticsearch-native") .empty) .empty)
    (.sub "elasticsearch"
      (.leaf "host" (.str url)
        (.leaf "username" (.str username)
          (.leaf "password" (.str password) .empty)))
      .empty)

/-- The document the second map literal of `associationConfig` denotes. -/
def caDocument (W : Deps) : CanonicalConfig :=
  .sub "elasticsearch"
    (.sub "ssl"
      (.leaf "enabled" (.bool true)
        (.leaf "certificate_authority" (.str (W.Join ESCertsPath W.CertFileName))
          .empty))
      .empty)
    .empty

/-- The raw user settings `newConfig` parses: `Spec.Config.Data`, or the data of an
empty `commonv1.Config` when `Spec.Config` is nil. -/
def specConfigData (ents : entsv1beta1.EnterpriseSearch) : RawMap :=
  match ents.Spec.Config with
  | none => (commonv1.Config.mk .nil).Data
  | some specConfig => specConfig.Data

/-- The function `newConfig`: the defaults, merged with the association settings and then
with the user's settings. -/
def newConfig (W : Deps) (c : Client) (ents : entsv1beta1.EnterpriseSearch) :
    Except Error CanonicalConfig :=
  match defaultConfig W with
  | .error p => .error p
  | .ok cfg =>
    match NewCanonicalConfigFrom (specConfigData ents) with
    | .error err => .error err
    | .ok userProvidedCfg =>
      match associationConfig W c ents with
      | .error err => .error err
      | .ok associationCfg =>
        match cfg.MergeWith [associationCfg, userProvidedCfg] with
        | (_, some err) => .error err
        | (cfg', none) => .ok cfg'

/-- The secret `ReconcileConfig` expects for an owner and rendered bytes. -/
def expectedConfigSecret (W : Deps) (ents : entsv1beta1.EnterpriseSearch) (cfgBytes : Bytes) :
    corev1.Secret :=
  { Namespace := ents.Namespace
    Name := W.ConfigName ents.Name
    Labels := W.NewLabels ents.Name
    Annotations := none
    OwnerReferences := []
    ResourceVersion := ""
    UID := ""
    Type_ := ""
    Data := some (StrMap.singleton ConfigFilename cfgBytes)
    StringData := none }

/-- The closure `NeedsUpdate` of `ReconcileConfig`. -/
def NeedsUpdate (reconciledConfigSecret expectedConfigSecret : corev1.Secret) : Bool :=
  !reflect.DeepEqual reconciledConfigSecret.Data expectedConfigSecret.Data ||
    !reflect.DeepEqual reconciledConfigSecret.Labels expectedConfigSecret.Labels

/-- The closure `UpdateReconciled` of `ReconcileConfig`. -/
def UpdateReconciled (reconciledConfigSecret expectedConfigSecret : corev1.Secret) :
    corev1.Secret :=
  { reconciledConfigSecret with
    Labels := expectedConfigSecret.Labels
    Data := expectedConfigSecret.Data }

/-- The `reconciler.Params` literal of `ReconcileConfig`, with its two closures. -/
def reconcileParams (ents : entsv1beta1.EnterpriseSearch) (expectedConfigSecret : corev1.Secret) :
    reconciler.Params :=
  { Owner := ents
    Expected := expectedConfigSecret
    NeedsUpdate := fun reconciledConfigSecret =>
      NeedsUpdate reconciledConfigSecret expectedConfigSecret
    UpdateReconciled := fun reconciledConfigSecret =>
      UpdateReconciled reconciledConfigSecret expectedConfigSecret }

/-- The function `ReconcileConfig`: composes and renders the configuration and reconciles
the secret that stores it. The `scheme` argument, which the source only hands on to the
engine, is left out. -/
def ReconcileConfig (W : Deps) (client : Client) (ents : entsv1beta1.EnterpriseSearch) :
    Outcome :=
  match newConfig W client ents with
  | .error err => ⟨.error err, client, []⟩
  | .ok cfg =>
    match W.Render cfg with
    | .error err => ⟨.error err, client, []⟩
    | .ok cfgBytes =>
      reconciler.ReconcileResource client
        (reconcileParams ents (expectedConfigSecret W ents cfgBytes))

/-- A call that fails before it reaches the store: it returns the error and no secret,
leaves the client as it was and issues no request. -/
def Outcome.failedEarly (out : Outcome) (client : Client) (err : Error) : Prop :=
  out.result = .error err ∧ out.client = client ∧ out.trace = []


/-! ## Sample collaborators, used in the examples -/

/-- A renderer for the examples: the character codes of one `key: value` line per leaf. -/
def sampleRender (cfg : CanonicalConfig) : Except Error Bytes :=
  let line (e : String × Leaf) : String :=
    match e.2 with
    | .str s => e.1 ++ ": " ++ s ++ "\n"
    | .bool b => e.1 ++ ": " ++ (if b then "true" else "false") ++ "\n"
    | .list xs => e.1 ++ ": [" ++ String.intercalate ", " xs ++ "]\n"
  .ok (some ((String.join (cfg.entries.map line)).toList.map Char.toNat))

/-- Collaborators for the examples: port 3002, secret names with the suffix
`-ents-config`, one label, credentials `elastic`/`changeme`. -/
def sampleDeps : Deps :=
  { HTTPPort := 3002
    CertFileName := "tls.crt"
    Join := fun dir file => dir ++ "/" ++ file
    ConfigName := fun name => name ++ "-ents-config"
    NewLabels := fun name => some (StrMap.singleton "enterprisesearch.k8s.elastic.co/name" name)
    ElasticsearchAuthSettings := fun _ _ => .ok ("elastic", "changeme")
    Render := sampleRender }

/-- An owner for the examples: no association, no user settings. -/
def sampleOwner : entsv1beta1.EnterpriseSearch :=
  { Namespace := "default"
    Name := "ents"
    Spec := { Config := none }
    AssociationConf := { IsConfigured := false, CAIsConfigured := false, URL := "" } }

/-- An owner whose user settings override one default and add a key next to it. -/
def overridingOwner : entsv1beta1.EnterpriseSearch :=
  { sampleOwner with
    Spec := { Config := some ⟨.leaf "ent_search.external_url" (.str "https://ents.example")
      (.sub "ent_search" (.leaf "workers" (.str "4") .nil) .nil)⟩ }
    AssociationConf := { IsConfigured := true, CAIsConfigured := true, URL := "https://es:9200" } }

/-- The document `newConfig` composes for `overridingOwner`. -/
def overridingConfig : CanonicalConfig :=
  match newConfig sampleDeps ⟨[], []⟩ overridingOwner with
  | .ok cfg => cfg
  | .error _ => .empty


/-- An owner with an association and no CA. -/
def associatedOwner : entsv1beta1.EnterpriseSearch :=
  { sampleOwner with
    AssociationConf := { IsConfigured := true, CAIsConfigured := false, URL := "https://es:9200" } }

/-- The store of the examples before anything is reconciled: empty and reliable. -/
def emptyClient : Client := ⟨[], []⟩

/-- An empty store that answers the first request and fails the second. -/
def faultyClient : Client := ⟨[], [none, some (.StoreError "unavailable")]⟩

/-- The store of the examples after one reconciliation of `sampleOwner`. -/
def syncedClient : Client := (ReconcileConfig sampleDeps emptyClient sampleOwner).client

/-- A store that holds an outdated configuration secret of `sampleOwner`, with metadata
the store manages. -/
def staleClient : Client :=
  ⟨[{ Namespace := "default"
      Name := "ents-ents-config"
      Labels := none
      Annotations := some (StrMap.singleton "note" "kept")
      OwnerReferences := [ownerReference sampleOwner]
      ResourceVersion := "41"
      UID := "7f3c"
      Type_ := "Opaque"
      Data := some (StrMap.singleton ConfigFilename (some [35]))
      StringData := none }], []⟩

/-- The secret a call returned, or the zero secret when it failed. -/
def Outcome.secret (out : Outcome) : corev1.Secret :=
  match out.result with
  | .ok s => s
  | .error _ => ⟨⟨"", "", none, none, [], "", ""⟩, "", none, none⟩

/-- An owner whose user settings bind `a` both to a leaf and to a nested document. -/
def malformedOwner : entsv1beta1.EnterpriseSearch :=
  { sampleOwner with
    Spec := { Config := some ⟨.leaf "a" (.str "x") (.leaf "a.b" (.str "y") .nil)⟩ } }

/-- An owner whose user settings bind `ent_search`, a nested document of the defaults,
to a leaf. -/
def conflictingOwner : entsv1beta1.EnterpriseSearch :=
  { sampleOwner with Spec := { Config := some ⟨.leaf "ent_search" (.str "x") .nil⟩ } }

/-- Collaborators whose credentials lookup fails. -/
def noCredentialsDeps : Deps :=
  { sampleDeps with
    ElasticsearchAuthSettings := fun _ _ => .error (.CredentialResolutionError "secret not found") }

/-- Collaborators whose renderer fails. -/
def noRenderDeps : Deps :=
  { sampleDeps with Render := fun _ => .error (.RenderError "cannot serialize") }

/-- A stored secret whose labels are those of `relabelledExpected` in another order and
whose other fields differ from it. -/
def reorderedSecret : corev1.Secret :=
  { Namespace := "default"
    Name := "ents-ents-config"
    Labels := some ⟨[("b", "2"), ("a", "1")], by decide⟩
    Annotations := some (StrMap.singleton "note" "kept")
    OwnerReferences := []
    ResourceVersion := "41"
    UID := "7f3c"
    Type_ := "Opaque"
    Data := some (StrMap.singleton ConfigFilename (some [35]))
    StringData := none }

/-- An expected secret with two labels. -/
def relabelledExpected : corev1.Secret :=
  { Namespace := "default"
    Name := "ents-ents-config"
    Labels := some ⟨[("a", "1"), ("b", "2")], by decide⟩
    Annotations := none
    OwnerReferences := []
    ResourceVersion := ""
    UID := ""
    Type_ := ""
    Data := some (StrMap.singleton ConfigFilename (some [35]))
    StringData := none }

/-! ## Lemmas on settings documents -/

namespace CanonicalConfig

theorem leafAt_nil (d : CanonicalConfig) : d.leafAt [] = none := by
  cases d <;> rfl

theorem leafAt_of_not_mem_keys {d : CanonicalConfig} {k : String} (h : k ∉ d.keys)
    (p : Path) : d.leafAt (k :: p) = none := by
  induction d with
  | empty => rfl
  | leaf k' v rest ih =>
    simp only [keys, List.mem_cons, not_or] at h
    have hk : ¬ k' = k := fun e => h.1 e.symm
    simp [leafAt, hk, ih h.2]
  | sub k' c rest _ ih =>
    simp only [keys, List.mem_cons, not_or] at h
    have hk : ¬ k' = k := fun e => h.1 e.symm
    simp [leafAt, hk, ih h.2]

theorem setLeaf_keys {pfx : Path} {t t1 : CanonicalConfig} {k : String} {v : Leaf}
    (h : setLeaf pfx t k v = .ok t1) (x : String) :
    x ∈ t1.keys ↔ x ∈ t.keys ∨ x = k := by
  induction t generalizing t1 with
  | empty =>
    simp only [setLeaf, Except.ok.injEq] at h
    subst h; simp [keys]
  | leaf k' v' rest ih =>
    simp only [setLeaf] at h
    split at h
    · rename_i hk
      split at h
      · simp only [Except.ok.injEq] at h
        subst h; subst hk; simp only [keys, List.mem_cons]; tauto
      · cases h
    · split at h
      · rename_i rest' hr
        simp only [Except.ok.injEq] at h
        subst h
        simp [keys, ih hr, or_assoc]
      · cases h
  | sub k' c rest _ ih =>
    simp only [setLeaf] at h
    split at h
    · cases h
    · split at h
      · rename_i rest' hr
        simp only [Except.ok.injEq] at h
        subst h
        simp [keys, ih hr, or_assoc]
      · cases h

theorem setLeaf_WF {pfx : Path} {t t1 : CanonicalConfig} {k : String} {v : Leaf}
    (h : setLeaf pfx t k v = .ok t1) (ht : t.WF) : t1.WF := by
  induction t generalizing t1 with
  | empty =>
    simp only [setLeaf, Except.ok.injEq] at h
    subst h; simp [WF, keys]
  | leaf k' v' rest ih =>
    simp only [setLeaf] at h
    split at h
    · rename_i hk
      split at h
      · simp only [Except.ok.injEq] at h
        subst h; subst hk; exact ht
      · cases h
    · rename_i hk
      split at h
      · rename_i rest' hr
        simp only [Except.ok.injEq] at h
        subst h
        refine ⟨?_, ih hr ht.2⟩
        rw [setLeaf_keys hr]
        rintro (hm | he)
        · exact ht.1 hm
        · exact hk he
      · cases h
  | sub k' c rest _ ih =>
    simp only [setLeaf] at h
    split at h
    · cases h
    · rename_i hk
      split at h
      · rename_i rest' hr
        simp only [Except.ok.injEq] at h
        subst h
        refine ⟨?_, ht.2.1, ih hr ht.2.2⟩
        rw [setLeaf_keys hr]
        rintro (hm | he)
        · exact ht.1 hm
        · exact hk he
      · cases h

theorem setLeaf_leafAt {pfx : Path} {t t1 : CanonicalConfig} {k : String} {v : Leaf}
    (h : setLeaf pfx t k v = .ok t1) (K : Path) :
    t1.leafAt K = if K = [k] then some v else t.leafAt K := by
  induction t generalizing t1 with
  | empty =>
    simp only [setLeaf, Except.ok.injEq] at h
    subst h
    cases K with
    | nil => simp [leafAt]
    | cons key ks =>
      by_cases hk : k = key
      · subst hk; by_cases hks : ks = [] <;> simp [leafAt, hks]
      · have : ¬ key = k := fun e => hk e.symm
        simp [leafAt, hk, this]
  | leaf k' v' rest ih =>
    simp only [setLeaf] at h
    split at h
    · rename_i hk
      split at h
      · simp only [Except.ok.injEq] at h
        subst h; subst hk
        cases K with
        | nil => simp [leafAt]
        | cons key ks =>
          by_cases hk : k' = key
          · subst hk; by_cases hks : ks = [] <;> simp [leafAt, hks]
          · have : ¬ key = k' := fun e => hk e.symm
            simp [leafAt, hk, this]
      · cases h
    · rename_i hk
      split at h
      · rename_i rest' hr
        simp only [Except.ok.injEq] at h
        subst h
        cases K with
        | nil => simp [leafAt]
        | cons key ks =>
          by_cases hk2 : k' = key
          · subst hk2
            have : ¬ (k' :: ks = [k]) := by
              intro e; simp only [List.cons.injEq] at e; exact hk e.1
            simp [leafAt, this]
          · simp only [leafAt, hk2, if_false]
            exact ih hr
      · cases h
  | sub k' c rest _ ih =>
    simp only [setLeaf] at h
    split at h
    · cases h
    · rename_i hk
      split at h
      · rename_i rest' hr
        simp only [Except.ok.injEq] at h
        subst h
        cases K with
        | nil => simp [leafAt]
        | cons key ks =>
          by_cases hk2 : k' = key
          · subst hk2
            have : ¬ (k' :: ks = [k]) := by
              intro e; simp only [List.cons.injEq] at e; exact hk e.1
            simp [leafAt, this]
          · simp only [leafAt, hk2, if_false]
            exact ih hr
      · cases h


theorem childAt_leafAt {pfx : Path} {t c : CanonicalConfig} {k : String}
    (h : childAt pfx t k = .ok c) (p : Path) : t.leafAt (k :: p) = c.leafAt p := by
  induction t with
  | empty =>
    simp only [childAt, Except.ok.injEq] at h
    subst h
    cases p <;> rfl
  | leaf k' v' rest ih =>
    simp only [childAt] at h
    split at h
    · cases h
    · rename_i hk
      simp only [leafAt, hk, if_false]
      exact ih h
  | sub k' child rest _ ih =>
    simp only [childAt] at h
    split at h
    · rename_i hk
      simp only [Except.ok.injEq] at h
      subst h
      simp [leafAt, hk]
    · rename_i hk
      simp only [leafAt, hk, if_false]
      exact ih h

theorem childAt_WF {pfx : Path} {t c : CanonicalConfig} {k : String}
    (h : childAt pfx t k = .ok c) (ht : t.WF) : c.WF := by
  induction t with
  | empty =>
    simp only [childAt, Except.ok.injEq] at h
    subst h; trivial
  | leaf k' v' rest ih =>
    simp only [childAt] at h
    split at h
    · cases h
    · exact ih h ht.2
  | sub k' child rest _ ih =>
    simp only [childAt] at h
    split at h
    · simp only [Except.ok.injEq] at h
      subst h; exact ht.2.1
    · exact ih h ht.2.2

theorem putSub_keys (t : CanonicalConfig) (k : String) (c : CanonicalConfig) (x : String) :
    x ∈ (putSub t k c).keys ↔ x ∈ t.keys ∨ x = k := by
  induction t with
  | empty => simp [putSub, keys]
  | leaf k' v' rest ih =>
    simp only [putSub]
    split
    · rename_i hk; subst hk; simp only [keys, List.mem_cons]; tauto
    · simp only [keys, List.mem_cons, ih]; tauto
  | sub k' child rest _ ih =>
    simp only [putSub]
    split
    · rename_i hk; subst hk; simp only [keys, List.mem_cons]; tauto
    · simp only [keys, List.mem_cons, ih]; tauto

theorem putSub_WF {pfx : Path} {t c0 : CanonicalConfig} {k : String} (c : CanonicalConfig)
    (h0 : childAt pfx t k = .ok c0) (ht : t.WF) (hc : c.WF) : (putSub t k c).WF := by
  induction t with
  | empty => simp [putSub, WF, keys, hc]
  | leaf k' v' rest ih =>
    simp only [childAt] at h0
    split at h0
    · cases h0
    · rename_i hk
      simp only [putSub, hk, if_false]
      refine ⟨?_, ih h0 ht.2⟩
      rw [putSub_keys]
      rintro (hm | he)
      · exact ht.1 hm
      · exact hk he
  | sub k' child rest _ ih =>
    simp only [childAt] at h0
    split at h0
    · rename_i hk
      simp only [putSub, hk, if_true]
      exact ⟨by subst hk; exact ht.1, hc, ht.2.2⟩
    · rename_i hk
      simp only [putSub, hk, if_false]
      refine ⟨?_, ht.2.1, ih h0 ht.2.2⟩
      rw [putSub_keys]
      rintro (hm | he)
      · exact ht.1 hm
      · exact hk he

theorem putSub_leafAt (t : CanonicalConfig) (k : String) (c : CanonicalConfig)
    (key : String) (p : Path) :
    (putSub t k c).leafAt (key :: p) = if key = k then c.leafAt p else t.leafAt (key :: p) := by
  induction t with
  | empty =>
    by_cases hk : k = key
    · subst hk; simp [putSub, leafAt]
    · have : ¬ key = k := fun e => hk e.symm
      simp [putSub, leafAt, hk, this]
  | leaf k' v' rest ih =>
    simp only [putSub]
    split
    · rename_i hk; subst hk
      by_cases hk2 : k' = key
      · subst hk2; simp [leafAt]
      · have : ¬ key = k' := fun e => hk2 e.symm
        simp [leafAt, hk2, this]
    · rename_i hk
      by_cases hk2 : k' = key
      · subst hk2; simp [leafAt, hk]
      · simp only [leafAt, hk2, if_false]; exact ih
  | sub k' child rest _ ih =>
    simp only [putSub]
    split
    · rename_i hk; subst hk
      by_cases hk2 : k' = key
      · subst hk2; simp [leafAt]
      · have : ¬ key = k' := fun e => hk2 e.symm
        simp [leafAt, hk2, this]
    · rename_i hk
      by_cases hk2 : k' = key
      · subst hk2; simp [leafAt, hk]
      · simp only [leafAt, hk2, if_false]; exact ih

theorem merge_WF {src : CanonicalConfig} : ∀ {pfx : Path} {t r : CanonicalConfig},
    merge src pfx t = .ok r → t.WF → r.WF := by
  induction src with
  | empty =>
    intro pfx t r h ht
    simp only [merge, Except.ok.injEq] at h
    subst h; exact ht
  | leaf k v rest ih =>
    intro pfx t r h ht
    simp only [merge] at h
    split at h
    · rename_i t1 h1
      exact ih h (setLeaf_WF h1 ht)
    · cases h
  | sub k child rest ihc ihr =>
    intro pfx t r h ht
    simp only [merge] at h
    split at h
    · cases h
    · rename_i c hc
      split at h
      · cases h
      · rename_i c1 hc1
        exact ihr h (putSub_WF c1 hc ht (ihc hc1 (childAt_WF hc ht)))

/-- A successful merge overrides the target leaf by leaf: at every fully-qualified
key the result holds the source's leaf when the source defines the key, and the
target's leaf otherwise. -/
theorem merge_leafAt {src : CanonicalConfig} : ∀ {pfx : Path} {t r : CanonicalConfig},
    merge src pfx t = .ok r → src.WF →
    ∀ K, r.leafAt K = override (src.leafAt K) (t.leafAt K) := by
  induction src with
  | empty =>
    intro pfx t r h _ K
    simp only [merge, Except.ok.injEq] at h
    subst h
    cases K <;> simp [leafAt, override]
  | leaf k v rest ih =>
    intro pfx t r h hs K
    simp only [merge] at h
    split at h
    · rename_i t1 h1
      rw [ih h hs.2 K, setLeaf_leafAt h1 K]
      cases K with
      | nil => simp [leafAt_nil, override]
      | cons key ks =>
        by_cases hk : k = key
        · subst hk
          rw [leafAt_of_not_mem_keys hs.1]
          by_cases hks : ks = []
          · subst hks; simp [leafAt, override]
          · simp only [leafAt, if_true, hks, if_false, override, List.cons.injEq, true_and]
        · have : ¬ (key :: ks = [k]) := by
            intro e; simp only [List.cons.injEq] at e; exact hk e.1.symm
          simp [leafAt, hk, this]
    · cases h
  | sub k child rest ihc ihr =>
    intro pfx t r h hs K
    simp only [merge] at h
    split at h
    · cases h
    · rename_i c hc
      split at h
      · cases h
      · rename_i c1 hc1
        rw [ihr h hs.2.2 K]
        cases K with
        | nil => simp [leafAt_nil, override]
        | cons key ks =>
          rw [putSub_leafAt]
          by_cases hk : k = key
          · subst hk
            rw [leafAt_of_not_mem_keys hs.1]
            simp only [if_true, leafAt, override]
            rw [ihc hc1 hs.2.1 ks, childAt_leafAt hc ks]
            rfl
          · have : ¬ key = k := fun e => hk e.symm
            simp [leafAt, hk, this]

end CanonicalConfig

namespace CanonicalConfig

/-- The flattened form of a well-formed document lists exactly the leaves it defines. -/
theorem mem_flatten_iff {d : CanonicalConfig} (hd : d.WF) (K : Path) (v : Leaf) :
    (K, v) ∈ d.flatten ↔ d.leafAt K = some v := by
  induction d generalizing K with
  | empty => cases K <;> simp [flatten, leafAt]
  | leaf k v' rest ih =>
    simp only [flatten, List.mem_cons, Prod.mk.injEq, ih hd.2]
    cases K with
    | nil => simp [leafAt, leafAt_nil]
    | cons key ks =>
      by_cases hk : k = key
      · subst hk
        rw [leafAt_of_not_mem_keys hd.1]
        by_cases hks : ks = []
        · subst hks
          simp only [leafAt, if_true, Option.some.injEq, true_and]
          constructor
          · rintro (h | h)
            · exact h.symm
            · cases h
          · intro h
            exact Or.inl h.symm
        · simp [leafAt, hks]
      · have : ¬ key = k := fun e => hk e.symm
        simp [leafAt, hk, this]
  | sub k c rest ihc ihr =>
    simp only [flatten, List.mem_append, List.mem_map, Prod.mk.injEq, ihr hd.2.2]
    cases K with
    | nil =>
      simp only [leafAt_nil]
      constructor
      · rintro (⟨e, _, h1, _⟩ | h)
        · cases h1
        · exact h
      · intro h
        cases h
    | cons key ks =>
      by_cases hk : k = key
      · subst hk
        rw [leafAt_of_not_mem_keys hd.1]
        simp only [leafAt, if_true]
        constructor
        · rintro (⟨e, he, h1, h2⟩ | h)
          · simp only [List.cons.injEq, true_and] at h1
            subst h1; subst h2
            exact (ihc hd.2.1 e.1).mp he
          · cases h
        · intro h
          exact Or.inl ⟨(ks, v), (ihc hd.2.1 ks).mpr h, rfl, rfl⟩
      · simp only [leafAt, hk, if_false]
        constructor
        · rintro (⟨e, _, h1, _⟩ | h)
          · simp only [List.cons.injEq] at h1
            exact absurd h1.1 hk
          · exact h
        · intro h
          exact Or.inr h

end CanonicalConfig

/-! ## Lemmas on Go maps and deep equality -/

theorem lookup_eq_some_mem {V : Type} {l : List (String × V)} {k : String} {v : V}
    (h : l.lookup k = some v) : (k, v) ∈ l := by
  induction l with
  | nil => simp at h
  | cons e l ih =>
    obtain ⟨k', v'⟩ := e
    by_cases hk : k = k'
    · subst hk
      simp only [List.lookup_cons, beq_self_eq_true, Option.some.injEq] at h
      subst h
      exact List.mem_cons_self _ _
    · have hb : (k == k') = false := by simpa using hk
      simp only [List.lookup_cons, hb] at h
      exact List.mem_cons_of_mem _ (ih h)

theorem lookup_of_mem_nodup {V : Type} {l : List (String × V)} {k : String} {v : V}
    (hnd : (l.map Prod.fst).Nodup) (h : (k, v) ∈ l) : l.lookup k = some v := by
  induction l with
  | nil => simp at h
  | cons e l ih =>
    obtain ⟨k', v'⟩ := e
    simp only [List.map_cons, List.nodup_cons, List.mem_map, not_exists, not_and] at hnd
    rcases List.mem_cons.mp h with h | h
    · simp only [Prod.mk.injEq] at h
      obtain ⟨rfl, rfl⟩ := h
      simp [List.lookup_cons]
    · have hk : ¬ k = k' := by
        intro e
        exact hnd.1 (k, v) h (by simp [e])
      have hb : (k == k') = false := by simpa using hk
      simp only [List.lookup_cons, hb]
      exact ih hnd.2 h

theorem lookup_eq_none_iff_not_mem_keys {V : Type} {l : List (String × V)} {k : String} :
    l.lookup k = none ↔ k ∉ l.map Prod.fst := by
  induction l with
  | nil => simp
  | cons e l ih =>
    obtain ⟨k', v'⟩ := e
    by_cases hk : k = k'
    · subst hk; simp [List.lookup_cons]
    · have hb : (k == k') = false := by simpa using hk
      simp only [List.lookup_cons, hb, ih, List.map_cons, List.mem_cons, hk, false_or]

theorem reflect.DeepEqual_refl {V : Type} [DecidableEq V] (m : GoMap V) :
    reflect.DeepEqual m m = true := by
  cases m with
  | none => rfl
  | some a =>
    simp only [reflect.DeepEqual, decide_True, Bool.true_and, List.all_eq_true,
      decide_eq_true_eq, StrMap.lookup]
    intro e he
    exact lookup_of_mem_nodup a.nodup he

/-- Go's deep equality of two maps holds exactly when they are the same map value. -/
theorem reflect.DeepEqual_iff_Same {V : Type} [DecidableEq V] (a b : GoMap V) :
    reflect.DeepEqual a b = true ↔ GoMap.Same a b := by
  cases a with
  | none =>
    cases b with
    | none => simp [reflect.DeepEqual, GoMap.Same]
    | some b => simp [reflect.DeepEqual, GoMap.Same]
  | some a =>
    cases b with
    | none => simp [reflect.DeepEqual, GoMap.Same]
    | some b =>
      simp only [reflect.DeepEqual, Bool.and_eq_true, decide_eq_true_eq, List.all_eq_true,
        GoMap.Same, Option.isSome_some, true_and, GoMap.get?, StrMap.lookup]
      constructor
      · rintro ⟨hlen, hall⟩ k
        cases hk : a.entries.lookup k with
        | some v => exact (hall (k, v) (lookup_eq_some_mem hk)).symm
        | none =>
          have hsub : a.entries.map Prod.fst ⊆ b.entries.map Prod.fst := by
            intro x hx
            obtain ⟨e, he, rfl⟩ := List.mem_map.mp hx
            have := hall e he
            by_contra hnot
            rw [lookup_eq_none_iff_not_mem_keys.mpr hnot] at this
            cases this
          have hperm : (a.entries.map Prod.fst).Perm (b.entries.map Prod.fst) :=
            (List.subperm_of_subset a.nodup hsub).perm_of_length_le (by simp [hlen])
          have hka : k ∉ a.entries.map Prod.fst := lookup_eq_none_iff_not_mem_keys.mp hk
          have hkb : k ∉ b.entries.map Prod.fst := fun h => hka (hperm.mem_iff.mpr h)
          exact (lookup_eq_none_iff_not_mem_keys.mpr hkb).symm
      · intro h
        have hsub : ∀ (x y : StrMap V), (∀ k, x.entries.lookup k = y.entries.lookup k) →
            x.entries.map Prod.fst ⊆ y.entries.map Prod.fst := by
          intro x y hxy k hk
          by_contra hnot
          have h1 := lookup_eq_none_iff_not_mem_keys.mpr hnot
          rw [← hxy k] at h1
          exact lookup_eq_none_iff_not_mem_keys.mp h1 hk
        have hperm : (a.entries.map Prod.fst).Perm (b.entries.map Prod.fst) :=
          (List.subperm_of_subset a.nodup (hsub a b h)).antisymm
            (List.subperm_of_subset b.nodup (hsub b a (fun k => (h k).symm)))
        refine ⟨by simpa using hperm.length_eq, ?_⟩
        intro e he
        rw [← h e.1]
        exact lookup_of_mem_nodup a.nodup he

/-- A map that is deeply equal to a single-entry map is that map. -/
theorem reflect.DeepEqual_singleton {V : Type} [DecidableEq V] {a : GoMap V} {k : String} {v : V}
    (h : reflect.DeepEqual a (some (StrMap.singleton k v)) = true) :
    a = some (StrMap.singleton k v) := by
  cases a with
  | none => simp [reflect.DeepEqual] at h
  | some a =>
    obtain ⟨entries, nd⟩ := a
    simp only [reflect.DeepEqual, StrMap.singleton, List.length_singleton, Bool.and_eq_true,
      decide_eq_true_eq, List.all_eq_true, StrMap.lookup] at h
    obtain ⟨hlen, hall⟩ := h
    match entries, hlen, hall with
    | [(k', v')], _, hall =>
      have := hall (k', v') (List.mem_singleton.mpr rfl)
      simp only [List.lookup_cons, List.lookup_nil] at this
      split at this
      · rename_i hb
        have hk : k' = k := by simpa using hb
        simp only [Option.some.injEq] at this
        subst hk; subst this
        rfl
      · cases this


/-! ## Lemmas on the store and the engine -/

theorem find?_replaceNamed {s x : corev1.Secret} {l : List corev1.Secret}
    (h : l.find? (isNamed s.Namespace s.Name) = some x) :
    (replaceNamed s l).find? (isNamed s.Namespace s.Name) = some s := by
  have hs : isNamed s.Namespace s.Name s = true := by simp [isNamed]
  induction l with
  | nil => simp at h
  | cons y ys ih =>
    simp only [replaceNamed]
    split
    · simp [List.find?_cons, hs]
    · rename_i hy
      simp only [Bool.not_eq_true] at hy
      simp only [List.find?_cons, hy] at h ⊢
      exact ih h

theorem find?_isNamed {ns name : String} {x : corev1.Secret} {l : List corev1.Secret}
    (h : l.find? (isNamed ns name) = some x) : x.Namespace = ns ∧ x.Name = name := by
  have := List.find?_some h
  simpa [isNamed] using this

theorem Client.Get_cases (c : Client) (ns name : String) :
    (∃ e fs, c.faults = some e :: fs ∧ c.Get ns name = (.error e, { c with faults := fs })) ∨
    c.Get ns name = (.ok (c.secrets.find? (isNamed ns name)), { c with faults := c.faults.tail }) := by
  unfold Client.Get
  split
  · rename_i e fs h
    exact Or.inl ⟨e, fs, h, rfl⟩
  · exact Or.inr rfl

theorem Client.Create_cases (c : Client) (s : corev1.Secret) :
    (∃ e, (c.Create s).1 = some e ∧ (c.Create s).2.secrets = c.secrets) ∨
    (c.secrets.any (isNamed s.Namespace s.Name) = false ∧
      c.Create s = (none, { secrets := c.secrets ++ [s], faults := c.faults.tail })) := by
  unfold Client.Create
  split
  · rename_i e fs h
    exact Or.inl ⟨e, rfl, rfl⟩
  · split
    · exact Or.inl ⟨_, rfl, rfl⟩
    · rename_i h
      exact Or.inr ⟨by simpa using h, rfl⟩

theorem Client.Update_cases (c : Client) (s : corev1.Secret) :
    (∃ e, (c.Update s).1 = some e ∧ (c.Update s).2.secrets = c.secrets) ∨
    (c.secrets.any (isNamed s.Namespace s.Name) = true ∧
      c.Update s = (none, { secrets := replaceNamed s c.secrets, faults := c.faults.tail })) := by
  unfold Client.Update
  split
  · rename_i e fs h
    exact Or.inl ⟨e, rfl, rfl⟩
  · split
    · rename_i h
      exact Or.inr ⟨h, rfl⟩
    · exact Or.inl ⟨_, rfl, rfl⟩

/-- The three ways in which the engine returns a record: it created the expected record,
it found a record that needs no update, or it found one, updated it and persisted it. -/
theorem ReconcileResource_ok {c : Client} {P : reconciler.Params} {s : corev1.Secret}
    (h : (reconciler.ReconcileResource c P).result = .ok s) :
    (c.secrets.find? (isNamed P.Expected.Namespace P.Expected.Name) = none ∧
      s = { P.Expected with
        OwnerReferences := P.Expected.OwnerReferences ++ [ownerReference P.Owner] } ∧
      (reconciler.ReconcileResource c P).trace =
        [.Get P.Expected.Namespace P.Expected.Name, .Create s] ∧
      (reconciler.ReconcileResource c P).client =
        { secrets := c.secrets ++ [s], faults := c.faults.tail.tail }) ∨
    (∃ observed, c.secrets.find? (isNamed P.Expected.Namespace P.Expected.Name) = some observed ∧
      P.NeedsUpdate observed = false ∧ s = observed ∧
      (reconciler.ReconcileResource c P).trace =
        [.Get P.Expected.Namespace P.Expected.Name, .NeedsUpdate false] ∧
      (reconciler.ReconcileResource c P).client = { c with faults := c.faults.tail }) ∨
    (∃ observed, c.secrets.find? (isNamed P.Expected.Namespace P.Expected.Name) = some observed ∧
      P.NeedsUpdate observed = true ∧ s = P.UpdateReconciled observed ∧
      (reconciler.ReconcileResource c P).trace =
        [.Get P.Expected.Namespace P.Expected.Name, .NeedsUpdate true, .Update s] ∧
      (reconciler.ReconcileResource c P).client =
        { secrets := replaceNamed s c.secrets, faults := c.faults.tail.tail }) := by
  unfold reconciler.ReconcileResource at h ⊢
  rcases Client.Get_cases c P.Expected.Namespace P.Expected.Name with ⟨e, fs, _, hget⟩ | hget
  · simp only [hget] at h
    cases h
  · simp only [hget] at h ⊢
    cases hfind : c.secrets.find? (isNamed P.Expected.Namespace P.Expected.Name) with
    | none =>
      simp only [hfind] at h ⊢
      left
      rcases Client.Create_cases { c with faults := c.faults.tail }
        { P.Expected with
          OwnerReferences := P.Expected.OwnerReferences ++ [ownerReference P.Owner] }
        with ⟨e, he, _⟩ | ⟨_, hcreate⟩
      · split at h
        · cases h
        · rename_i heq
          rw [heq] at he
          cases he
      · simp only [hcreate] at h ⊢
        simp only [Except.ok.injEq] at h
        subst h
        exact ⟨trivial, rfl, rfl, rfl⟩
    | some observed =>
      simp only [hfind] at h ⊢
      right
      by_cases hnu : P.NeedsUpdate observed = true
      · simp only [hnu, if_true] at h ⊢
        right
        rcases Client.Update_cases { c with faults := c.faults.tail }
          (P.UpdateReconciled observed) with ⟨e, he, _⟩ | ⟨_, hupdate⟩
        · split at h
          · cases h
          · rename_i heq
            rw [heq] at he
            cases he
        · simp only [hupdate] at h ⊢
          simp only [Except.ok.injEq] at h
          subst h
          exact ⟨observed, rfl, hnu, rfl, rfl, rfl⟩
      · have hnu' : P.NeedsUpdate observed = false := by simpa using hnu
        simp only [hnu', Bool.false_eq_true, if_false, Except.ok.injEq] at h
        left
        refine ⟨observed, rfl, hnu', h.symm, ?_, ?_⟩ <;> simp [hnu']


theorem ReconcileConfig_of_rendered {W : Deps} {c : Client}
    {ents : entsv1beta1.EnterpriseSearch} {cfg : CanonicalConfig} {cfgBytes : Bytes}
    (hcfg : newConfig W c ents = .ok cfg) (hrender : W.Render cfg = .ok cfgBytes) :
    ReconcileConfig W c ents =
      reconciler.ReconcileResource c
        (reconcileParams ents (expectedConfigSecret W ents cfgBytes)) := by
  simp only [ReconcileConfig, hcfg, hrender]

theorem ReconcileConfig_rendered_of_trace {W : Deps} {c : Client}
    {ents : entsv1beta1.EnterpriseSearch}
    (h : (ReconcileConfig W c ents).trace ≠ [] ∨ ∃ s, (ReconcileConfig W c ents).result = .ok s) :
    ∃ cfg cfgBytes, newConfig W c ents = .ok cfg ∧ W.Render cfg = .ok cfgBytes := by
  cases hcfg : newConfig W c ents with
  | error e =>
    simp only [ReconcileConfig, hcfg] at h
    rcases h with h | ⟨s, h⟩
    · exact absurd rfl h
    · cases h
  | ok cfg =>
    cases hrender : W.Render cfg with
    | error e =>
      simp only [ReconcileConfig, hcfg, hrender] at h
      rcases h with h | ⟨s, h⟩
      · exact absurd rfl h
      · cases h
    | ok cfgBytes => exact ⟨cfg, cfgBytes, rfl, hrender⟩

/-- An update request of the engine carries the fetched record after `UpdateReconciled`. -/
theorem ReconcileResource_update_event {c : Client} {P : reconciler.Params} {s : corev1.Secret}
    (h : Event.Update s ∈ (reconciler.ReconcileResource c P).trace) :
    ∃ observed, c.secrets.find? (isNamed P.Expected.Namespace P.Expected.Name) = some observed ∧
      s = P.UpdateReconciled observed := by
  unfold reconciler.ReconcileResource at h
  rcases Client.Get_cases c P.Expected.Namespace P.Expected.Name with ⟨e, fs, _, hget⟩ | hget
  · simp [hget] at h
  · simp only [hget] at h
    cases hfind : c.secrets.find? (isNamed P.Expected.Namespace P.Expected.Name) with
    | none =>
      simp only [hfind] at h
      split at h <;> simp at h
    | some observed =>
      simp only [hfind] at h
      by_cases hnu : P.NeedsUpdate observed = true
      · simp only [hnu, if_true] at h
        refine ⟨observed, rfl, ?_⟩
        split at h <;> simpa using h
      · simp [hnu] at h

/-- A call of the engine against a store that holds a record which needs no update
issues no write: either the fetch fails, or the predicate is evaluated to false and the
record is returned. -/
theorem ReconcileResource_in_sync {c : Client} {P : reconciler.Params} {observed : corev1.Secret}
    (hfind : c.secrets.find? (isNamed P.Expected.Namespace P.Expected.Name) = some observed)
    (hnu : P.NeedsUpdate observed = false) :
    (reconciler.ReconcileResource c P).client.secrets = c.secrets ∧
    ((∃ err, c.faults.head? = some (some err) ∧
        (reconciler.ReconcileResource c P).result = .error err ∧
        (reconciler.ReconcileResource c P).trace =
          [.Get P.Expected.Namespace P.Expected.Name]) ∨
      ((reconciler.ReconcileResource c P).result = .ok observed ∧
        (reconciler.ReconcileResource c P).trace =
          [.Get P.Expected.Namespace P.Expected.Name, .NeedsUpdate false])) := by
  unfold reconciler.ReconcileResource
  rcases Client.Get_cases c P.Expected.Namespace P.Expected.Name with ⟨e, fs, hf, hget⟩ | hget
  · simp only [hget]
    exact ⟨trivial, Or.inl ⟨e, by simp [hf], rfl, trivial⟩⟩
  · simp [hget, hfind, hnu]


/-! ## Lemmas on building documents -/

theorem fromRaw_WF {raw : RawMap} : ∀ {acc r : CanonicalConfig},
    fromRaw raw acc = .ok r → acc.WF → r.WF := by
  induction raw with
  | nil =>
    intro acc r h hacc
    simp only [fromRaw, Except.ok.injEq] at h
    subst h; exact hacc
  | leaf key v rest ih =>
    intro acc r h hacc
    simp only [fromRaw] at h
    split at h
    · rename_i acc1 h1
      exact ih h (CanonicalConfig.merge_WF h1 hacc)
    · cases h
  | sub key child rest _ ihr =>
    intro acc r h hacc
    simp only [fromRaw] at h
    split at h
    · cases h
    · split at h
      · rename_i acc1 h1
        exact ihr h (CanonicalConfig.merge_WF h1 hacc)
      · cases h

theorem NewCanonicalConfigFrom_WF {data : RawMap} {cfg : CanonicalConfig}
    (h : NewCanonicalConfigFrom data = .ok cfg) : cfg.WF := by
  simp only [NewCanonicalConfigFrom] at h
  split at h
  · rename_i c hc
    simp only [Except.ok.injEq] at h
    subst h
    exact fromRaw_WF hc trivial
  · cases h

theorem MustCanonicalConfig_WF {raw : RawMap} {cfg : CanonicalConfig}
    (h : MustCanonicalConfig raw = .ok cfg) : cfg.WF := by
  simp only [MustCanonicalConfig] at h
  split at h
  · rename_i c hc
    simp only [Except.ok.injEq] at h
    subst h
    exact NewCanonicalConfigFrom_WF hc
  · cases h

theorem MergeWith_WF {cfgs : List CanonicalConfig} : ∀ {c : CanonicalConfig},
    c.WF → (c.MergeWith cfgs).1.WF := by
  induction cfgs with
  | nil => intro c hc; exact hc
  | cons c2 cfgs ih =>
    intro c hc
    simp only [CanonicalConfig.MergeWith]
    split
    · exact hc
    · rename_i c1 h1
      exact ih (CanonicalConfig.merge_WF h1 hc)

theorem associationConfig_WF {W : Deps} {c : Client} {ents : entsv1beta1.EnterpriseSearch}
    {cfg : CanonicalConfig} (h : associationConfig W c ents = .ok cfg) : cfg.WF := by
  simp only [associationConfig] at h
  split at h
  · simp only [Except.ok.injEq] at h
    subst h; trivial
  · split at h
    · cases h
    · split at h
      · cases h
      · rename_i cfg0 h0
        split at h
        · split at h
          · cases h
          · simp only [Except.ok.injEq] at h
            subst h
            exact MergeWith_WF (MustCanonicalConfig_WF h0)
        · simp only [Except.ok.injEq] at h
          subst h
          exact MustCanonicalConfig_WF h0

/-- The two-layer merge of `newConfig` overrides leaf by leaf, last layer first. -/
theorem MergeWith_two_leafAt {D A U cfg : CanonicalConfig} (hA : A.WF) (hU : U.WF)
    (h : D.MergeWith [A, U] = (cfg, none)) (K : Path) :
    cfg.leafAt K = override (U.leafAt K) (override (A.leafAt K) (D.leafAt K)) := by
  simp only [CanonicalConfig.MergeWith] at h
  split at h
  · cases h
  · rename_i r1 h1
    split at h
    · cases h
    · rename_i r2 h2
      simp only [Prod.mk.injEq, and_true] at h
      subst h
      rw [CanonicalConfig.merge_leafAt h2 hU K, CanonicalConfig.merge_leafAt h1 hA K]

/-! ## Claims -/

/-- C1. Merge precedence in `newConfig`: whenever `newConfig` succeeds, the defaults `D`,
the association fragment `A` and the user fragment `U` it merged exist, and at every
fully-qualified leaf key `K` the composed document holds `U[K]` if `U` defines `K`,
otherwise `A[K]` if `A` defines `K`, otherwise `D[K]`; in particular a key that `U` does
not define keeps the value of `A` or `D`, whatever else `U` sets under the same parent. -/
theorem newConfig_merge_precedence (W : Deps) (c : Client)
    (ents : entsv1beta1.EnterpriseSearch) (cfg : CanonicalConfig)
    (h : newConfig W c ents = .ok cfg) :
    ∃ D A U, defaultConfig W = .ok D ∧ associationConfig W c ents = .ok A ∧
      NewCanonicalConfigFrom (specConfigData ents) = .ok U ∧
      (∀ K, cfg.leafAt K = override (U.leafAt K) (override (A.leafAt K) (D.leafAt K))) ∧
      (∀ K, U.leafAt K = none → cfg.leafAt K = override (A.leafAt K) (D.leafAt K)) := by
  simp only [newConfig] at h
  split at h
  · cases h
  · rename_i D hD
    split at h
    · cases h
    · rename_i U hU
      split at h
      · cases h
      · rename_i A hA
        split at h
        · cases h
        · rename_i cfg1 hm
          simp only [Except.ok.injEq] at h
          subst h
          have key := MergeWith_two_leafAt (associationConfig_WF hA)
            (NewCanonicalConfigFrom_WF hU) hm
          refine ⟨D, A, U, hD, hA, hU, key, ?_⟩
          intro K hK
          rw [key K, hK]
          rfl

/-- C1, at an owner with an association and user settings: the user's URL wins, the
default listen host under the same parent survives. -/
theorem newConfig_merge_precedence_witness :
    newConfig sampleDeps ⟨[], []⟩ overridingOwner = .ok overridingConfig ∧
    overridingConfig.leafAt ["ent_search", "external_url"] = some (.str "https://ents.example") ∧
    overridingConfig.leafAt ["ent_search", "listen_host"] = some (.str "0.0.0.0") ∧
    overridingConfig.leafAt ["elasticsearch", "host"] = some (.str "https://es:9200") ∧
    ∃ D A U, defaultConfig sampleDeps = .ok D ∧
      associationConfig sampleDeps ⟨[], []⟩ overridingOwner = .ok A ∧
      NewCanonicalConfigFrom (specConfigData overridingOwner) = .ok U ∧
      (∀ K, overridingConfig.leafAt K =
        override (U.leafAt K) (override (A.leafAt K) (D.leafAt K))) ∧
      (∀ K, U.leafAt K = none →
        overridingConfig.leafAt K = override (A.leafAt K) (D.leafAt K)) :=
  ⟨rfl, rfl, rfl, rfl,
    newConfig_merge_precedence sampleDeps ⟨[], []⟩ overridingOwner overridingConfig rfl⟩


/-- The document `defaultConfig` builds. -/
theorem defaultConfig_eq (W : Deps) :
    defaultConfig W = .ok (defaultDocument W) := rfl

/-- The document built from the connection settings of an association. -/
theorem associationSettings_eq (url username password : String) :
    MustCanonicalConfig (associationSettings url username password) =
      .ok (associationDocument url username password) := rfl

/-- The document built from the TLS settings of an association. -/
theorem caSettings_eq (W : Deps) :
    MustCanonicalConfig (caSettings W) = .ok (caDocument W) := rfl

/-- C7. Defaults only: for every owner with no association configured and no user
settings (`Spec.Config` nil, or its data nil or empty), `newConfig` succeeds and the
document has exactly the five default keys with their literal values, the external
URL being `http://localhost:` followed by the port in decimal, which is
`http://localhost:3002` when `HTTPPort` is 3002; no association key is present. -/
theorem newConfig_defaults_only (W : Deps) (c : Client) (ents : entsv1beta1.EnterpriseSearch)
    (hassoc : ents.AssociationConf.IsConfigured = false)
    (huser : ents.Spec.Config = none ∨ ents.Spec.Config = some ⟨RawMap.nil⟩) :
    ∃ cfg, newConfig W c ents = .ok cfg ∧
      cfg.entries =
        [("ent_search.external_url", .str (Sprintf_d "http://localhost:" W.HTTPPort)),
         ("ent_search.listen_host", .str "0.0.0.0"),
         ("allow_es_settings_modification", .bool true),
         ("secret_session_key", .str "TODOCHANGEMEsecret_session_key"),
         ("secret_management.encryption_keys",
           .list ["TODOCHANGEMEsecret_management.encryption_keys"])] ∧
      (W.HTTPPort = 3002 →
        cfg.leafAt ["ent_search", "external_url"] = some (.str "http://localhost:3002")) := by
  have hdata : specConfigData ents = RawMap.nil := by
    rcases huser with h | h <;> simp [specConfigData, h]
  have hA : associationConfig W c ents = .ok .empty := by
    simp [associationConfig, hassoc, NewCanonicalConfig]
  have h : newConfig W c ents = .ok (defaultDocument W) := by
    simp only [newConfig, defaultConfig_eq, hdata, hA]
    rfl
  refine ⟨_, h, rfl, ?_⟩
  intro hport
  simp only [defaultDocument, CanonicalConfig.leafAt, if_true, Sprintf_d, hport]
  rfl

/-- C7, at the sample owner, whose port is 3002. -/
theorem newConfig_defaults_only_witness :
    ∃ cfg, newConfig sampleDeps ⟨[], []⟩ sampleOwner = .ok cfg ∧
      cfg.entries =
        [("ent_search.external_url", .str (Sprintf_d "http://localhost:" sampleDeps.HTTPPort)),
         ("ent_search.listen_host", .str "0.0.0.0"),
         ("allow_es_settings_modification", .bool true),
         ("secret_session_key", .str "TODOCHANGEMEsecret_session_key"),
         ("secret_management.encryption_keys",
           .list ["TODOCHANGEMEsecret_management.encryption_keys"])] ∧
      (sampleDeps.HTTPPort = 3002 →
        cfg.leafAt ["ent_search", "external_url"] = some (.str "http://localhost:3002")) :=
  newConfig_defaults_only sampleDeps ⟨[], []⟩ sampleOwner rfl (Or.inl rfl)

/-- C8. Association without trust anchor: when the association is configured, the
credentials resolve to a user name and a password and no CA is configured,
`associationConfig` yields exactly the four keys `ent_search.auth.source`,
`elasticsearch.host`, `elasticsearch.username` and `elasticsearch.password` with the
marker `elasticsearch-native`, the association URL and the credentials, and neither
of the two `elasticsearch.ssl` keys. -/
theorem associationConfig_without_ca (W : Deps) (c : Client)
    (ents : entsv1beta1.EnterpriseSearch) (username password : String)
    (hconf : ents.AssociationConf.IsConfigured = true)
    (hauth : W.ElasticsearchAuthSettings c ents = .ok (username, password))
    (hca : ents.AssociationConf.CAIsConfigured = false) :
    ∃ cfg, associationConfig W c ents = .ok cfg ∧
      cfg.entries =
        [("ent_search.auth.source", .str "elasticsearch-native"),
         ("elasticsearch.host", .str ents.AssociationConf.URL),
         ("elasticsearch.username", .str username),
         ("elasticsearch.password", .str password)] ∧
      cfg.leafAt ["elasticsearch", "ssl", "enabled"] = none ∧
      cfg.leafAt ["elasticsearch", "ssl", "certificate_authority"] = none := by
  have h : associationConfig W c ents =
      .ok (associationDocument ents.AssociationConf.URL username password) := by
    simp only [associationConfig, hconf, hauth, hca, associationSettings_eq]
    rfl
  exact ⟨_, h, rfl, rfl, rfl⟩

/-- C8, at an owner with an association and no CA. -/
theorem associationConfig_without_ca_witness :
    ∃ cfg, associationConfig sampleDeps ⟨[], []⟩ associatedOwner = .ok cfg ∧
      cfg.entries =
        [("ent_search.auth.source", .str "elasticsearch-native"),
         ("elasticsearch.host", .str "https://es:9200"),
         ("elasticsearch.username", .str "elastic"),
         ("elasticsearch.password", .str "changeme")] ∧
      cfg.leafAt ["elasticsearch", "ssl", "enabled"] = none ∧
      cfg.leafAt ["elasticsearch", "ssl", "certificate_authority"] = none :=
  associationConfig_without_ca sampleDeps ⟨[], []⟩ associatedOwner "elastic" "changeme"
    rfl rfl rfl

/-- C9. Association with trust anchor: when the association and its CA are configured
and the credentials resolve, `associationConfig` yields the four association keys as
without a CA and in addition `elasticsearch.ssl.enabled = true` and
`elasticsearch.ssl.certificate_authority`, whose value is `filepath.Join` of
`/mnt/es-certs` and `certificates.CertFileName`: it mentions neither the owner nor the
host nor the credentials. -/
theorem associationConfig_with_ca (W : Deps) (c : Client)
    (ents : entsv1beta1.EnterpriseSearch) (username password : String)
    (hconf : ents.AssociationConf.IsConfigured = true)
    (hauth : W.ElasticsearchAuthSettings c ents = .ok (username, password))
    (hca : ents.AssociationConf.CAIsConfigured = true) :
    ∃ cfg, associationConfig W c ents = .ok cfg ∧
      cfg.entries =
        [("ent_search.auth.source", .str "elasticsearch-native"),
         ("elasticsearch.host", .str ents.AssociationConf.URL),
         ("elasticsearch.username", .str username),
         ("elasticsearch.password", .str password),
         ("elasticsearch.ssl.enabled", .bool true),
         ("elasticsearch.ssl.certificate_authority",
           .str (W.Join "/mnt/es-certs" W.CertFileName))] := by
  have h : associationConfig W c ents =
      .ok ((associationDocument ents.AssociationConf.URL username password).MergeWith
        [caDocument W]).1 := by
    simp only [associationConfig, hconf, hauth, hca, associationSettings_eq, caSettings_eq]
    rfl
  exact ⟨_, h, rfl⟩

/-- C9, at an owner with an association and a CA. -/
theorem associationConfig_with_ca_witness :
    ∃ cfg, associationConfig sampleDeps ⟨[], []⟩ overridingOwner = .ok cfg ∧
      cfg.entries =
        [("ent_search.auth.source", .str "elasticsearch-native"),
         ("elasticsearch.host", .str "https://es:9200"),
         ("elasticsearch.username", .str "elastic"),
         ("elasticsearch.password", .str "changeme"),
         ("elasticsearch.ssl.enabled", .bool true),
         ("elasticsearch.ssl.certificate_authority",
           .str (sampleDeps.Join "/mnt/es-certs" sampleDeps.CertFileName))] :=
  associationConfig_with_ca sampleDeps ⟨[], []⟩ overridingOwner "elastic" "changeme"
    rfl rfl rfl

/-- C10. The merge whose error `associationConfig` discards never fails: for every
association URL, user name and password, both map literals build a document and
merging the TLS document into the connection document returns no error. -/
theorem associationConfig_merge_never_fails (W : Deps) (url username password : String) :
    ∃ cfg ca, MustCanonicalConfig (associationSettings url username password) = .ok cfg ∧
      MustCanonicalConfig (caSettings W) = .ok ca ∧
      (cfg.MergeWith [ca]).2 = none :=
  ⟨_, _, associationSettings_eq url username password, caSettings_eq W, rfl⟩


theorem NeedsUpdate_eq_false_iff (reconciled expected : corev1.Secret) :
    NeedsUpdate reconciled expected = false ↔
      reflect.DeepEqual reconciled.Data expected.Data = true ∧
        reflect.DeepEqual reconciled.Labels expected.Labels = true := by
  simp [NeedsUpdate]

theorem NeedsUpdate_of_fields {s expected : corev1.Secret}
    (hd : s.Data = expected.Data) (hl : s.Labels = expected.Labels) :
    NeedsUpdate s expected = false := by
  rw [NeedsUpdate_eq_false_iff, hd, hl]
  exact ⟨reflect.DeepEqual_refl _, reflect.DeepEqual_refl _⟩

/-- After a call of `ReconcileConfig`'s engine that returned a record, the store holds
that record under the expected identity, the record needs no update, and the call
issued at most one write. -/
theorem ReconcileResource_converged {c : Client} {ents : entsv1beta1.EnterpriseSearch}
    {expected s : corev1.Secret}
    (h : (reconciler.ReconcileResource c (reconcileParams ents expected)).result = .ok s) :
    (reconciler.ReconcileResource c (reconcileParams ents expected)).client.secrets.find?
        (isNamed expected.Namespace expected.Name) = some s ∧
      NeedsUpdate s expected = false ∧
      writes (reconciler.ReconcileResource c (reconcileParams ents expected)).trace ≤ 1 := by
  rcases ReconcileResource_ok h with ⟨hfind, hs, htrace, hclient⟩ |
    ⟨observed, hfind, hnu, hs, htrace, hclient⟩ | ⟨observed, hfind, hnu, hs, htrace, hclient⟩
  · rw [htrace, hclient]
    simp only [reconcileParams] at hfind hs
    refine ⟨?_, ?_, by simp [writes, Event.isWrite]⟩
    · simp only [reconcileParams, List.find?_append, hfind, Option.none_or]
      have : isNamed expected.Namespace expected.Name s = true := by
        subst hs; simp [isNamed]
      simp [List.find?_cons, this]
    · subst hs
      exact NeedsUpdate_of_fields rfl rfl
  · rw [htrace, hclient]
    simp only [reconcileParams] at hfind hnu hs
    subst hs
    exact ⟨hfind, hnu, by simp [writes, Event.isWrite]⟩
  · rw [htrace, hclient]
    simp only [reconcileParams] at hfind hs
    obtain ⟨hns, hname⟩ := find?_isNamed hfind
    have hsns : s.Namespace = expected.Namespace := by
      subst hs; exact hns
    have hsname : s.Name = expected.Name := by
      subst hs; exact hname
    refine ⟨?_, ?_, by simp [writes, Event.isWrite]⟩
    · have := find?_replaceNamed (s := s) (x := observed) (l := c.secrets)
        (by rw [hsns, hsname]; exact hfind)
      rw [hsns, hsname] at this
      exact this
    · subst hs
      exact NeedsUpdate_of_fields rfl rfl

/-- C2, as amended. Idempotent reconcile: for every store state and every fixed owner
(hence fixed desired secret: the configuration composed on the second call is the one
composed on the first), if the first call of `ReconcileConfig` returns without error,
then the two calls issue at most one write in total, the second call issues no write
and leaves the stored records as they are, and the second call either evaluates
`NeedsUpdate` to false and returns the record the first call returned, or fails on a
store error of its fetch. -/
theorem ReconcileConfig_idempotent (W : Deps) (c : Client)
    (ents : entsv1beta1.EnterpriseSearch) (first : corev1.Secret)
    (hfirst : (ReconcileConfig W c ents).result = .ok first)
    (hfixed : newConfig W (ReconcileConfig W c ents).client ents = newConfig W c ents) :
    writes (ReconcileConfig W c ents).trace +
        writes (ReconcileConfig W (ReconcileConfig W c ents).client ents).trace ≤ 1 ∧
      writes (ReconcileConfig W (ReconcileConfig W c ents).client ents).trace = 0 ∧
      (ReconcileConfig W (ReconcileConfig W c ents).client ents).client.secrets =
        (ReconcileConfig W c ents).client.secrets ∧
      ((needsUpdateResults (ReconcileConfig W (ReconcileConfig W c ents).client ents).trace
            = [false] ∧
          (ReconcileConfig W (ReconcileConfig W c ents).client ents).result = .ok first) ∨
        ∃ err, (ReconcileConfig W c ents).client.faults.head? = some (some err) ∧
          (ReconcileConfig W (ReconcileConfig W c ents).client ents).result = .error err) := by
  obtain ⟨cfg, cfgBytes, hcfg, hrender⟩ :=
    ReconcileConfig_rendered_of_trace (Or.inr ⟨first, hfirst⟩)
  have h2 := ReconcileConfig_of_rendered (c := (ReconcileConfig W c ents).client)
    (hfixed.trans hcfg) hrender
  rw [h2]
  have h1 := ReconcileConfig_of_rendered hcfg hrender
  rw [h1] at hfirst ⊢
  obtain ⟨hfind, hnu, hw⟩ := ReconcileResource_converged hfirst
  obtain ⟨hsecrets, hres⟩ := ReconcileResource_in_sync
    (P := reconcileParams ents (expectedConfigSecret W ents cfgBytes)) hfind hnu
  have hw2 : writes (reconciler.ReconcileResource
      (reconciler.ReconcileResource c
        (reconcileParams ents (expectedConfigSecret W ents cfgBytes))).client
      (reconcileParams ents (expectedConfigSecret W ents cfgBytes))).trace = 0 := by
    rcases hres with ⟨err, _, _, ht⟩ | ⟨_, ht⟩ <;> rw [ht] <;> simp [writes, Event.isWrite]
  refine ⟨by omega, hw2, hsecrets, ?_⟩
  rcases hres with ⟨err, hf, hr, _⟩ | ⟨hr, ht⟩
  · exact Or.inr ⟨err, hf, hr⟩
  · exact Or.inl ⟨by rw [ht]; rfl, hr⟩


/-- C2, counterexample. On an empty store that fails the create of the first call, the
first call returns the store error, and the second call, with nothing changed in
between, finds no record, never evaluates `NeedsUpdate` and creates the secret: the
claim as stated does not hold there. -/
theorem ReconcileConfig_idempotent_counterexample :
    (ReconcileConfig sampleDeps faultyClient sampleOwner).result =
      .error (.StoreError "unavailable") ∧
    (ReconcileConfig sampleDeps faultyClient sampleOwner).client.secrets.length = 0 ∧
    needsUpdateResults
      (ReconcileConfig sampleDeps
        (ReconcileConfig sampleDeps faultyClient sampleOwner).client sampleOwner).trace = [] ∧
    writes
      (ReconcileConfig sampleDeps
        (ReconcileConfig sampleDeps faultyClient sampleOwner).client sampleOwner).trace = 1 ∧
    (ReconcileConfig sampleDeps
      (ReconcileConfig sampleDeps faultyClient sampleOwner).client
      sampleOwner).client.secrets.length = 1 ∧
    ¬ (writes (ReconcileConfig sampleDeps faultyClient sampleOwner).trace +
          writes (ReconcileConfig sampleDeps
            (ReconcileConfig sampleDeps faultyClient sampleOwner).client sampleOwner).trace ≤ 1 ∧
        needsUpdateResults (ReconcileConfig sampleDeps
          (ReconcileConfig sampleDeps faultyClient sampleOwner).client sampleOwner).trace
          = [false] ∧
        writes (ReconcileConfig sampleDeps
          (ReconcileConfig sampleDeps faultyClient sampleOwner).client sampleOwner).trace = 0) :=
  ⟨rfl, by decide⟩

set_option maxRecDepth 100000 in
/-- C2, as amended, at the empty reliable store: the first call creates the secret, the
second one finds it in sync. -/
theorem ReconcileConfig_idempotent_witness :
    (ReconcileConfig sampleDeps emptyClient sampleOwner).result =
      .ok (ReconcileConfig sampleDeps emptyClient sampleOwner).secret ∧
    writes (ReconcileConfig sampleDeps emptyClient sampleOwner).trace = 1 ∧
    (writes (ReconcileConfig sampleDeps emptyClient sampleOwner).trace +
        writes (ReconcileConfig sampleDeps
          (ReconcileConfig sampleDeps emptyClient sampleOwner).client sampleOwner).trace ≤ 1 ∧
      writes (ReconcileConfig sampleDeps
        (ReconcileConfig sampleDeps emptyClient sampleOwner).client sampleOwner).trace = 0 ∧
      (ReconcileConfig sampleDeps
        (ReconcileConfig sampleDeps emptyClient sampleOwner).client sampleOwner).client.secrets =
        (ReconcileConfig sampleDeps emptyClient sampleOwner).client.secrets ∧
      ((needsUpdateResults (ReconcileConfig sampleDeps
            (ReconcileConfig sampleDeps emptyClient sampleOwner).client sampleOwner).trace
            = [false] ∧
          (ReconcileConfig sampleDeps
            (ReconcileConfig sampleDeps emptyClient sampleOwner).client sampleOwner).result =
            .ok (ReconcileConfig sampleDeps emptyClient sampleOwner).secret) ∨
        ∃ err, (ReconcileConfig sampleDeps emptyClient sampleOwner).client.faults.head? =
            some (some err) ∧
          (ReconcileConfig sampleDeps
            (ReconcileConfig sampleDeps emptyClient sampleOwner).client sampleOwner).result =
            .error err)) :=
  ⟨rfl, rfl, ReconcileConfig_idempotent sampleDeps emptyClient sampleOwner
    (ReconcileConfig sampleDeps emptyClient sampleOwner).secret rfl rfl⟩

/-- C3. Convergence postcondition: whenever `ReconcileConfig` returns a secret, the
configuration was composed and rendered, the call took one of the three paths (created,
found equal, found and updated), and the returned secret has the owner's namespace and
the configuration secret name, its `Data` is exactly the single entry
`enterprise-search.yml` with the rendered bytes, and its `Labels` are the same map as the
desired labels. -/
theorem ReconcileConfig_postcondition (W : Deps) (c : Client)
    (ents : entsv1beta1.EnterpriseSearch) (secret : corev1.Secret)
    (h : (ReconcileConfig W c ents).result = .ok secret) :
    ∃ cfg cfgBytes, newConfig W c ents = .ok cfg ∧ W.Render cfg = .ok cfgBytes ∧
      ((ReconcileConfig W c ents).trace =
          [.Get ents.Namespace (W.ConfigName ents.Name), .Create secret] ∨
        (ReconcileConfig W c ents).trace =
          [.Get ents.Namespace (W.ConfigName ents.Name), .NeedsUpdate false] ∨
        (ReconcileConfig W c ents).trace =
          [.Get ents.Namespace (W.ConfigName ents.Name), .NeedsUpdate true, .Update secret]) ∧
      secret.Namespace = ents.Namespace ∧
      secret.Name = W.ConfigName ents.Name ∧
      secret.Data = some (StrMap.singleton ConfigFilename cfgBytes) ∧
      GoMap.Same secret.Labels (W.NewLabels ents.Name) := by
  obtain ⟨cfg, cfgBytes, hcfg, hrender⟩ :=
    ReconcileConfig_rendered_of_trace (Or.inr ⟨secret, h⟩)
  refine ⟨cfg, cfgBytes, hcfg, hrender, ?_⟩
  rw [ReconcileConfig_of_rendered hcfg hrender] at h ⊢
  have hsame : ∀ m : GoMap String, GoMap.Same m m := fun m => ⟨rfl, fun _ => rfl⟩
  rcases ReconcileResource_ok h with ⟨_, hs, htrace, _⟩ |
    ⟨observed, hfind, hnu, hs, htrace, _⟩ | ⟨observed, hfind, hnu, hs, htrace, _⟩
  · refine ⟨Or.inl htrace, ?_⟩
    subst hs
    exact ⟨rfl, rfl, rfl, hsame _⟩
  · refine ⟨Or.inr (Or.inl htrace), ?_⟩
    subst hs
    obtain ⟨hns, hname⟩ := find?_isNamed hfind
    simp only [reconcileParams] at hnu
    rw [NeedsUpdate_eq_false_iff] at hnu
    exact ⟨hns, hname, reflect.DeepEqual_singleton hnu.1,
      (reflect.DeepEqual_iff_Same _ _).mp hnu.2⟩
  · refine ⟨Or.inr (Or.inr htrace), ?_⟩
    subst hs
    obtain ⟨hns, hname⟩ := find?_isNamed hfind
    exact ⟨hns, hname, rfl, hsame _⟩

set_option maxRecDepth 100000 in
/-- C3, on each of the three paths: the secret is created in the empty store, found equal
in the store a first call left, and updated in a store that holds an outdated one. -/
theorem ReconcileConfig_postcondition_witness :
    (writes (ReconcileConfig sampleDeps emptyClient sampleOwner).trace = 1 ∧
      needsUpdateResults (ReconcileConfig sampleDeps syncedClient sampleOwner).trace = [false] ∧
      needsUpdateResults (ReconcileConfig sampleDeps staleClient sampleOwner).trace = [true]) ∧
    (∀ c ∈ [emptyClient, syncedClient, staleClient],
      ∃ cfg cfgBytes, newConfig sampleDeps c sampleOwner = .ok cfg ∧
        sampleDeps.Render cfg = .ok cfgBytes ∧
        ((ReconcileConfig sampleDeps c sampleOwner).trace =
            [.Get sampleOwner.Namespace (sampleDeps.ConfigName sampleOwner.Name),
              .Create (ReconcileConfig sampleDeps c sampleOwner).secret] ∨
          (ReconcileConfig sampleDeps c sampleOwner).trace =
            [.Get sampleOwner.Namespace (sampleDeps.ConfigName sampleOwner.Name),
              .NeedsUpdate false] ∨
          (ReconcileConfig sampleDeps c sampleOwner).trace =
            [.Get sampleOwner.Namespace (sampleDeps.ConfigName sampleOwner.Name),
              .NeedsUpdate true, .Update (ReconcileConfig sampleDeps c sampleOwner).secret]) ∧
        (ReconcileConfig sampleDeps c sampleOwner).secret.Namespace = sampleOwner.Namespace ∧
        (ReconcileConfig sampleDeps c sampleOwner).secret.Name =
          sampleDeps.ConfigName sampleOwner.Name ∧
        (ReconcileConfig sampleDeps c sampleOwner).secret.Data =
          some (StrMap.singleton ConfigFilename cfgBytes) ∧
        GoMap.Same (ReconcileConfig sampleDeps c sampleOwner).secret.Labels
          (sampleDeps.NewLabels sampleOwner.Name)) := by
  refine ⟨⟨rfl, rfl, rfl⟩, ?_⟩
  intro c hc
  simp only [List.mem_cons, List.mem_singleton, List.not_mem_nil, or_false] at hc
  rcases hc with rfl | rfl | rfl
  · exact ReconcileConfig_postcondition sampleDeps emptyClient sampleOwner _ rfl
  · exact ReconcileConfig_postcondition sampleDeps syncedClient sampleOwner _ rfl
  · exact ReconcileConfig_postcondition sampleDeps staleClient sampleOwner _ rfl


/-- C4. Fail-fast atomicity: if parsing the user's settings fails, or the credentials
lookup of a configured association fails, or merging the three layers fails, or
rendering fails, then `ReconcileConfig` returns no secret and exactly that error,
leaves the client as it was and issues no get, create or update; a failed credentials
lookup is an error, never a configuration without credentials. -/
theorem ReconcileConfig_fail_fast (W : Deps) (c : Client)
    (ents : entsv1beta1.EnterpriseSearch) (err : Error) :
    (NewCanonicalConfigFrom (specConfigData ents) = .error err →
      (ReconcileConfig W c ents).failedEarly c err) ∧
    (∀ U, NewCanonicalConfigFrom (specConfigData ents) = .ok U →
      ents.AssociationConf.IsConfigured = true →
      W.ElasticsearchAuthSettings c ents = .error err →
      (ReconcileConfig W c ents).failedEarly c err) ∧
    (∀ D A U, defaultConfig W = .ok D →
      NewCanonicalConfigFrom (specConfigData ents) = .ok U →
      associationConfig W c ents = .ok A →
      (D.MergeWith [A, U]).2 = some err →
      (ReconcileConfig W c ents).failedEarly c err) ∧
    (∀ cfg, newConfig W c ents = .ok cfg → W.Render cfg = .error err →
      (ReconcileConfig W c ents).failedEarly c err) := by
  have hnew : newConfig W c ents = .error err → (ReconcileConfig W c ents).failedEarly c err := by
    intro h
    simp only [ReconcileConfig, h]
    exact ⟨rfl, rfl, rfl⟩
  refine ⟨?_, ?_, ?_, ?_⟩
  · intro hparse
    apply hnew
    simp only [newConfig, defaultConfig_eq, hparse]
  · intro U hparse hconf hauth
    apply hnew
    have hA : associationConfig W c ents = .error err := by
      simp only [associationConfig, hconf, hauth]
      rfl
    simp only [newConfig, defaultConfig_eq, hparse, hA]
  · intro D A U hD hparse hA hmerge
    apply hnew
    simp only [newConfig, hD, hparse, hA]
    split
    · rename_i e heq
      rw [heq] at hmerge
      simp only [Option.some.injEq] at hmerge
      rw [hmerge]
    · rename_i heq
      rw [heq] at hmerge
      cases hmerge
  · intro cfg hcfg hrender
    simp only [ReconcileConfig, hcfg, hrender]
    exact ⟨rfl, rfl, rfl⟩

/-- C4, at four failing inputs: malformed user settings, a failing credentials lookup,
user settings that conflict with the defaults, and a failing renderer. -/
theorem ReconcileConfig_fail_fast_witness :
    (ReconcileConfig sampleDeps emptyClient malformedOwner).failedEarly emptyClient
      (.ConfigParseError ["a"]) ∧
    (ReconcileConfig noCredentialsDeps emptyClient associatedOwner).failedEarly emptyClient
      (.CredentialResolutionError "secret not found") ∧
    (ReconcileConfig sampleDeps emptyClient conflictingOwner).failedEarly emptyClient
      (.ConfigMergeError ["ent_search"]) ∧
    (ReconcileConfig noRenderDeps emptyClient sampleOwner).failedEarly emptyClient
      (.RenderError "cannot serialize") :=
  ⟨(ReconcileConfig_fail_fast sampleDeps emptyClient malformedOwner
      (.ConfigParseError ["a"])).1 rfl,
    (ReconcileConfig_fail_fast noCredentialsDeps emptyClient associatedOwner
      (.CredentialResolutionError "secret not found")).2.1 .empty rfl rfl rfl,
    (ReconcileConfig_fail_fast sampleDeps emptyClient conflictingOwner
      (.ConfigMergeError ["ent_search"])).2.2.1 (defaultDocument sampleDeps) .empty
      (.leaf "ent_search" (.str "x") .empty) rfl rfl rfl rfl,
    (ReconcileConfig_fail_fast noRenderDeps emptyClient sampleOwner
      (.RenderError "cannot serialize")).2.2.2 (defaultDocument noRenderDeps) rfl rfl⟩

/-- C5. `NeedsUpdate` is exact: it returns false if and only if the observed `Data` is
the same map as the desired `Data` and the observed `Labels` are the same map as the
desired `Labels`; two observed secrets with the same `Data` and `Labels` get the same
answer, whatever their other fields. -/
theorem NeedsUpdate_exact (reconciled other expected : corev1.Secret) :
    (NeedsUpdate reconciled expected = false ↔
      GoMap.Same reconciled.Data expected.Data ∧
        GoMap.Same reconciled.Labels expected.Labels) ∧
    (other.Data = reconciled.Data → other.Labels = reconciled.Labels →
      NeedsUpdate other expected = NeedsUpdate reconciled expected) := by
  constructor
  · rw [NeedsUpdate_eq_false_iff, reflect.DeepEqual_iff_Same, reflect.DeepEqual_iff_Same]
  · intro hd hl
    simp only [NeedsUpdate, hd, hl]

/-- C5, at a stored secret whose labels are listed in another order and whose metadata
differs: no update is needed. -/
theorem NeedsUpdate_exact_witness :
    NeedsUpdate reorderedSecret relabelledExpected = false ∧
    (NeedsUpdate reorderedSecret relabelledExpected = false ↔
      GoMap.Same reorderedSecret.Data relabelledExpected.Data ∧
        GoMap.Same reorderedSecret.Labels relabelledExpected.Labels) ∧
    (({ reorderedSecret with UID := "other" } : corev1.Secret).Data = reorderedSecret.Data →
      ({ reorderedSecret with UID := "other" } : corev1.Secret).Labels = reorderedSecret.Labels →
      NeedsUpdate { reorderedSecret with UID := "other" } relabelledExpected =
        NeedsUpdate reorderedSecret relabelledExpected) :=
  ⟨by decide, NeedsUpdate_exact reorderedSecret { reorderedSecret with UID := "other" }
    relabelledExpected⟩

/-- C6. Update frame: `UpdateReconciled` sets `Labels` and `Data` of the observed secret
to the desired ones and leaves every other field as it was; and every update request
`ReconcileConfig` issues carries the fetched record after `UpdateReconciled`, which
replaces the fetched record in the store when the call succeeds. -/
theorem UpdateReconciled_frame (reconciled expected : corev1.Secret) :
    ((UpdateReconciled reconciled expected).Labels = expected.Labels ∧
      (UpdateReconciled reconciled expected).Data = expected.Data ∧
      (UpdateReconciled reconciled expected).Namespace = reconciled.Namespace ∧
      (UpdateReconciled reconciled expected).Name = reconciled.Name ∧
      (UpdateReconciled reconciled expected).Annotations = reconciled.Annotations ∧
      (UpdateReconciled reconciled expected).OwnerReferences = reconciled.OwnerReferences ∧
      (UpdateReconciled reconciled expected).ResourceVersion = reconciled.ResourceVersion ∧
      (UpdateReconciled reconciled expected).UID = reconciled.UID ∧
      (UpdateReconciled reconciled expected).Type_ = reconciled.Type_ ∧
      (UpdateReconciled reconciled expected).StringData = reconciled.StringData) ∧
    (∀ (W : Deps) (c : Client) (ents : entsv1beta1.EnterpriseSearch) (persisted : corev1.Secret),
      Event.Update persisted ∈ (ReconcileConfig W c ents).trace →
      ∃ fetched cfgBytes,
        c.secrets.find? (isNamed ents.Namespace (W.ConfigName ents.Name)) = some fetched ∧
        persisted = UpdateReconciled fetched (expectedConfigSecret W ents cfgBytes) ∧
        ((ReconcileConfig W c ents).result = .ok persisted →
          (ReconcileConfig W c ents).client.secrets = replaceNamed persisted c.secrets)) := by
  refine ⟨⟨rfl, rfl, rfl, rfl, rfl, rfl, rfl, rfl, rfl, rfl⟩, ?_⟩
  intro W c ents persisted hmem
  obtain ⟨cfg, cfgBytes, hcfg, hrender⟩ :=
    ReconcileConfig_rendered_of_trace (Or.inl (List.ne_nil_of_mem hmem))
  rw [ReconcileConfig_of_rendered hcfg hrender] at hmem ⊢
  obtain ⟨fetched, hfind, hp⟩ := ReconcileResource_update_event hmem
  refine ⟨fetched, cfgBytes, hfind, hp, ?_⟩
  intro hok
  rcases ReconcileResource_ok hok with ⟨_, _, htrace, _⟩ |
    ⟨_, _, _, _, htrace, _⟩ | ⟨_, _, _, _, _, hclient⟩
  · rw [htrace] at hmem
    simp at hmem
  · rw [htrace] at hmem
    simp at hmem
  · rw [hclient]


set_option maxRecDepth 100000 in
/-- C6, at a store that holds an outdated secret with metadata of its own: the record
persisted by the update keeps that metadata. -/
theorem UpdateReconciled_frame_witness :
    (ReconcileConfig sampleDeps staleClient sampleOwner).secret.ResourceVersion = "41" ∧
    (ReconcileConfig sampleDeps staleClient sampleOwner).secret.UID = "7f3c" ∧
    ∃ fetched cfgBytes,
      staleClient.secrets.find?
        (isNamed sampleOwner.Namespace (sampleDeps.ConfigName sampleOwner.Name)) = some fetched ∧
      (ReconcileConfig sampleDeps staleClient sampleOwner).secret =
        UpdateReconciled fetched (expectedConfigSecret sampleDeps sampleOwner cfgBytes) ∧
      ((ReconcileConfig sampleDeps staleClient sampleOwner).result =
          .ok (ReconcileConfig sampleDeps staleClient sampleOwner).secret →
        (ReconcileConfig sampleDeps staleClient sampleOwner).client.secrets =
          replaceNamed (ReconcileConfig sampleDeps staleClient sampleOwner).secret
            staleClient.secrets) :=
  ⟨rfl, rfl,
    (UpdateReconciled_frame reorderedSecret relabelledExpected).2 sampleDeps staleClient
      sampleOwner (ReconcileConfig sampleDeps staleClient sampleOwner).secret
      (List.mem_cons_of_mem _ (List.mem_cons_of_mem _ (List.mem_cons_self _ _)))⟩


end enterprisesearch
